import Mathlib

/-!
Verification of the manufacturing discrete-event simulation
(`Project 2-Manufacturing.cpp`).

Shallow embedding conventions:
* C++ `double` simulated time is modelled as `ℚ` (all literals in the source
  are exactly representable; only orderings and exact sums matter here).
* C++ `int` counters are modelled as `Int`; `Product.intermediateStage` is
  modelled as `Nat` (it starts at 0 and is only ever incremented).
* `std::map<std::string, T>` is modelled as an association list with
  first-match lookup; `operator[]` in a read position is `mapIndex`, which
  default-inserts a zero entry exactly as the C++ operator does, and
  `operator[]` in a write position is `mapSet` / `mapAdd`.
* `std::function<void()>` event actions are defunctionalised into the
  `EAction` tag carrying exactly the data each closure in the source captures.
* `std::priority_queue<Event, vector<Event>, greater<Event>>` is modelled as
  the array binary heap maintained by the standard `push_heap` / `pop_heap`
  algorithms over the comparator `Event::operator>` (which compares `time`
  only): push appends and sifts up while the parent is strictly greater;
  pop swaps the root with the last element, shrinks, and sifts down,
  swapping only with a strictly smaller child.  Ties are resolved by heap
  position, never by insertion order.
* The seeded random engine composed with the exponential distribution is
  abstracted as a sample stream `ℕ → ℚ`; the engine's cursor is the
  `rngIndex` field of the state.
* `std::cout` logging and `logData`'s file output are I/O and are not part
  of the state.
* The `while` driver loop is modelled with explicit fuel; `runLoop` also
  returns the trace of popped events, the observable the temporal claims
  speak about.
-/

namespace Manufacturing

/-- Simulated time, C++ `double`. -/
abbrev Time := ℚ

/-- The source `Product { std::string type; int intermediateStage; }`. -/
structure Product where
  type : String
  intermediateStage : Nat
deriving DecidableEq, Repr

/-- The event actions: one constructor per distinct `std::function` closure
built in the source, carrying the data that closure captures. -/
inductive EAction where
  | rawMaterialArrival (productType : String)
  | setupDone (product : Product) (processTime : Time) (stage : String)
  | stageDone (product : Product)
  | maintenance (resource : String)
  | shiftChange
deriving DecidableEq, Repr

/-- The source `Event { double time; std::string type; std::function<void()> action; }`. -/
structure Event where
  time : Time
  type : String
  action : EAction
deriving DecidableEq, Repr

instance : Inhabited Event := ⟨⟨0, "", EAction.shiftChange⟩⟩

/-! ## Association-list model of `std::map<std::string, _>` -/

/-- First-match lookup, `map::find`. -/
def mapFind (m : List (String × α)) (k : String) : Option α :=
  match m with
  | [] => none
  | (k', v) :: rest => if k' = k then some v else mapFind rest k

/-- Lookup with a default for absent keys (the value `operator[]` would yield). -/
def mapGetD (m : List (String × α)) (k : String) (d : α) : α :=
  (mapFind m k).getD d

/-- The source `operator[]` in a read position: yields the stored value, default-inserting
a `d`-valued entry when the key is absent, and returns the possibly-grown map. -/
def mapIndex (m : List (String × α)) (k : String) (d : α) : α × List (String × α) :=
  match mapFind m k with
  | some v => (v, m)
  | none => (d, m ++ [(k, d)])

/-- The source `operator[]` in a write position: `m[k] = v`. -/
def mapSet (m : List (String × α)) (k : String) (v : α) : List (String × α) :=
  match m with
  | [] => [(k, v)]
  | (k', v') :: rest => if k' = k then (k, v) :: rest else (k', v') :: mapSet rest k v

/-- The source `m[k] += v` (with the zero default `operator[]` inserts first). -/
def mapAdd [Zero α] [Add α] (m : List (String × α)) (k : String) (v : α) :
    List (String × α) :=
  mapSet m k (mapGetD m k 0 + v)

/-! ## Binary heap model of the `std::priority_queue` -/

/-- Swap two in-range positions of the backing array. -/
def swapAt (a : List Event) (i j : Nat) : List Event :=
  let x := a.getD i default
  let y := a.getD j default
  (a.set i y).set j x

/-- The source `push_heap` sift-up: swap with the parent while the parent's time is
strictly greater.  The first argument is structural fuel bounding the number
of steps; every caller passes enough (each step at least halves the index). -/
def siftUp : Nat → List Event → Nat → List Event
  | 0, a, _ => a
  | fuel + 1, a, i =>
    if i = 0 then a
    else
      let p := (i - 1) / 2
      if (a.getD i default).time < (a.getD p default).time then
        siftUp fuel (swapAt a p i) p
      else a

/-- The source `priority_queue::push`: append then sift up from the new last slot. -/
def heapPush (a : List Event) (e : Event) : List Event :=
  siftUp (a.length + 1) (a ++ [e]) a.length

/-- The swap target of one sift-down step at `i`: the strictly smaller of the
existing children (preferring the right child only when it is strictly smaller
than the left candidate), or `i` itself when neither child is strictly
smaller. -/
def pickChild (a : List Event) (i : Nat) : Nat :=
  let n := a.length
  let l := 2 * i + 1
  let r := 2 * i + 2
  let c₁ := if l < n ∧ (a.getD l default).time < (a.getD i default).time then l else i
  if r < n ∧ (a.getD r default).time < (a.getD c₁ default).time then r else c₁

/-- The source `pop_heap` sift-down: repeatedly swap with the strictly smaller child.
The first argument is structural fuel bounding the number of steps; every
caller passes enough (each step moves strictly down the tree). -/
def siftDown : Nat → List Event → Nat → List Event
  | 0, a, _ => a
  | fuel + 1, a, i =>
    if i < pickChild a i ∧ pickChild a i < a.length then
      siftDown fuel (swapAt a i (pickChild a i)) (pickChild a i)
    else a

/-- The source `priority_queue::top`. -/
def heapTop (a : List Event) : Event :=
  a.getD 0 default

/-- The source `priority_queue::pop`: move the last element to the root, drop the last
slot, and sift down from the root. -/
def heapPopBack (a : List Event) : List Event :=
  siftDown a.length ((swapAt a 0 (a.length - 1)).dropLast) 0

/-! ## The simulation state: the fields of `class ManufacturingSystem` -/

structure SimState where
  eventQueue : List Event
  resources : List (String × Int)
  availableResources : List (String × Int)
  resourceUsageTime : List (String × Time)
  resourceWaitingTime : List (String × Time)
  rawMaterialCount : Int
  finishedProducts : Int
  currentTime : Time
  /-- cursor of the seeded random engine into the sample stream -/
  rngIndex : Nat
  processingTimes : List (String × List Time)
  productTypes : List (String × Int)
  finishedProductsPerType : List (String × Int)
  productQueue : List Product
  machineSetupTimes : List (String × Time)
  shiftLength : Int
deriving DecidableEq, Repr

/-- The `ManufacturingSystem()` constructor (the wall-clock seeding of the
random engine is the choice of sample stream, outside the state). -/
def mkManufacturingSystem : SimState where
  eventQueue := []
  resources := [("machines", 10), ("operators", 5)]
  availableResources := [("machines", 10), ("operators", 5)]
  resourceUsageTime := [("machines", 0), ("operators", 0)]
  resourceWaitingTime := [("machines", 0), ("operators", 0)]
  rawMaterialCount := 0
  finishedProducts := 0
  currentTime := 0
  rngIndex := 0
  processingTimes := [("ProductA", [2, 3/2, 1, 1]), ("ProductB", [3, 2, 3/2, 3/2])]
  productTypes := [("ProductA", 0), ("ProductB", 0)]
  finishedProductsPerType := [("ProductA", 0), ("ProductB", 0)]
  productQueue := []
  machineSetupTimes := [("ProductA", 1/2), ("ProductB", 3/4)]
  shiftLength := 8

/-- The source `getStageName`. -/
def getStageName : Nat → String
  | 0 => "machining"
  | 1 => "assembly"
  | 2 => "quality_control"
  | 3 => "packaging"
  | _ => "unknown"

/-- The source `scheduleEvent(time, type, action)`: an unconditional `eventQueue.push`. -/
def scheduleEvent (s : SimState) (time : Time) (type : String) (action : EAction) :
    SimState :=
  { s with eventQueue := heapPush s.eventQueue ⟨time, type, action⟩ }

/-- The source `handleNextStage(Product product)`. -/
def handleNextStage (product : Product) (s : SimState) : SimState :=
  let pt := mapIndex s.processingTimes product.type []
  let s1 := { s with processingTimes := pt.2 }
  if product.intermediateStage < pt.1.length then
    let processTime := pt.1.getD product.intermediateStage 0
    let stage := getStageName product.intermediateStage
    let av := mapIndex s1.availableResources stage 0
    let s2 := { s1 with availableResources := av.2 }
    if 0 < av.1 then
      let st := if product.intermediateStage = 0
        then mapIndex s2.machineSetupTimes product.type 0
        else (0, s2.machineSetupTimes)
      let setupTime := st.1
      let s3 := { s2 with machineSetupTimes := st.2 }
      let s4 := { s3 with availableResources := mapSet s3.availableResources stage (av.1 - 1) }
      let s5 := scheduleEvent s4 (s4.currentTime + setupTime) "setup"
        (EAction.setupDone product processTime stage)
      { s5 with resourceUsageTime := mapAdd s5.resourceUsageTime stage setupTime }
    else
      { s2 with resourceWaitingTime := mapAdd s2.resourceWaitingTime stage processTime }
  else s1

/-- The source `handleRawMaterialArrival(productType)`. -/
def handleRawMaterialArrival (stream : Nat → Time) (productType : String)
    (s : SimState) : SimState :=
  let s1 := { s with rawMaterialCount := s.rawMaterialCount + 1 }
  let newProduct : Product := ⟨productType, 0⟩
  let s2 := { s1 with productQueue := s1.productQueue ++ [newProduct] }
  let sample := stream s2.rngIndex
  let s3 := { s2 with rngIndex := s2.rngIndex + 1 }
  let s4 := scheduleEvent s3 (s3.currentTime + sample) "raw_material_arrival"
    (EAction.rawMaterialArrival productType)
  handleNextStage newProduct s4

/-- The source `completeStage(Product product)`. -/
def completeStage (product : Product) (s : SimState) : SimState :=
  let stage := getStageName product.intermediateStage
  let s1 := { s with availableResources := mapAdd s.availableResources stage 1 }
  let product2 : Product := { product with intermediateStage := product.intermediateStage + 1 }
  let pt := mapIndex s1.processingTimes product2.type []
  let s2 := { s1 with processingTimes := pt.2 }
  if pt.1.length ≤ product2.intermediateStage then
    { s2 with finishedProducts := s2.finishedProducts + 1,
              finishedProductsPerType := mapAdd s2.finishedProductsPerType product2.type 1 }
  else
    handleNextStage product2 s2

/-- The source `handleBreakdown(resource)` (defined in the source, never scheduled by the
engine itself). -/
def handleBreakdown (resource : String) (s : SimState) : SimState :=
  scheduleEvent s (s.currentTime + 5) "maintenance" (EAction.maintenance resource)

/-- The source `handleMaintenance(resource)`. -/
def handleMaintenance (resource : String) (s : SimState) : SimState :=
  { s with availableResources := mapAdd s.availableResources resource 1 }

/-- The source `handleShiftChange()`. -/
def handleShiftChange (s : SimState) : SimState :=
  let s1 := { s with availableResources := s.resources }
  scheduleEvent s1 (s1.currentTime + (s1.shiftLength : Time)) "shift_change"
    EAction.shiftChange

/-- Dispatch of a popped event's `action()`: each branch is the body of the
corresponding closure in the source. -/
def execAction (stream : Nat → Time) : EAction → SimState → SimState
  | EAction.rawMaterialArrival t, s => handleRawMaterialArrival stream t s
  | EAction.setupDone product processTime stage, s =>
      let s1 := { s with resourceUsageTime := mapAdd s.resourceUsageTime stage processTime }
      scheduleEvent s1 (s1.currentTime + processTime) stage (EAction.stageDone product)
  | EAction.stageDone product, s => completeStage product s
  | EAction.maintenance r, s => handleMaintenance r s
  | EAction.shiftChange, s => handleShiftChange s

/-- The driver loop of `runSimulation`:
`while (!eventQueue.empty() && currentTime < runTime) { top; pop; currentTime = e.time; e.action(); }`,
with explicit fuel, also returning the list of popped events in pop order. -/
def runLoop (stream : Nat → Time) (runTime : Time) :
    Nat → SimState → SimState × List Event
  | 0, s => (s, [])
  | fuel + 1, s =>
    if s.eventQueue ≠ [] ∧ s.currentTime < runTime then
      let e := heapTop s.eventQueue
      let s1 := { s with eventQueue := heapPopBack s.eventQueue, currentTime := e.time }
      let s2 := execAction stream e.action s1
      let rest := runLoop stream runTime fuel s2
      (rest.1, e :: rest.2)
    else (s, [])

/-- The source `runSimulation(runTime)`: seed the first raw-material arrival (always
`"ProductA"`) and the first shift change (at `shiftLength`, not
`currentTime + shiftLength`), then drain the queue. -/
def runSimulation (stream : Nat → Time) (runTime : Time) (fuel : Nat)
    (s : SimState) : SimState × List Event :=
  let sample := stream s.rngIndex
  let s1 := { s with rngIndex := s.rngIndex + 1 }
  let s2 := scheduleEvent s1 sample "raw_material_arrival"
    (EAction.rawMaterialArrival "ProductA")
  let s3 := scheduleEvent s2 (s2.shiftLength : Time) "shift_change" EAction.shiftChange
  runLoop stream runTime fuel s3

/-- The source `setResources` (also resets `availableResources`). -/
def setResources (s : SimState) (newResources : List (String × Int)) : SimState :=
  { s with resources := newResources, availableResources := newResources }

/-- The source `setAvailableResources`. -/
def setAvailableResources (s : SimState) (m : List (String × Int)) : SimState :=
  { s with availableResources := m }

/-- The source `runScenario(productType, machineCount, operatorCount, runTime)`: fresh
system, `setResources({machines, operators})`, then `runSimulation(runTime)`.
The `productType` argument only names the log file in the source and plays no
role in the simulation itself. -/
def runScenario (machineCount operatorCount : Int) (runTime : Time)
    (stream : Nat → Time) (fuel : Nat) : SimState × List Event :=
  runSimulation stream runTime fuel
    (setResources mkManufacturingSystem
      [("machines", machineCount), ("operators", operatorCount)])

/-! ## Specification predicates and derived notions

Everything below is a predicate or observable about the embedded program,
used to state the invariants and claims. -/

/-- The time stored at slot `i` of the backing array. -/
def timeAt (a : List Event) (i : Nat) : Time :=
  (a.getD i default).time

/-- The binary min-heap property on times: every child is at least its parent. -/
def heapLe (a : List Event) : Prop :=
  ∀ j, 0 < j → j < a.length → timeAt a ((j - 1) / 2) ≤ timeAt a j

/-- Sift-up intermediate invariant: every parent-child edge is ordered except
possibly the one into slot `i`, and the children of `i` are bounded below by
`i`'s parent (so the parent may move down into slot `i`). -/
def SiftUpOk (a : List Event) (i : Nat) : Prop :=
  (∀ j, 0 < j → j < a.length → j ≠ i → timeAt a ((j - 1) / 2) ≤ timeAt a j) ∧
  (0 < i → ∀ j, j < a.length → (j - 1) / 2 = i → timeAt a ((i - 1) / 2) ≤ timeAt a j)

/-- Sift-down intermediate invariant: every parent-child edge is ordered except
possibly those out of slot `i`, and the children of `i` are bounded below by
`i`'s parent. -/
def SiftDownOk (a : List Event) (i : Nat) : Prop :=
  (∀ j, 0 < j → j < a.length → (j - 1) / 2 ≠ i → timeAt a ((j - 1) / 2) ≤ timeAt a j) ∧
  (0 < i → ∀ j, j < a.length → (j - 1) / 2 = i → timeAt a ((i - 1) / 2) ≤ timeAt a j)

/-- All stored resource counts (available and capacities) are nonnegative. -/
def AvailNonneg (s : SimState) : Prop :=
  (∀ kv ∈ s.availableResources, 0 ≤ kv.2) ∧ (∀ kv ∈ s.resources, 0 ≤ kv.2)

/-- Durations carried inside a pending event's closure are nonnegative. -/
def actionNonneg : EAction → Prop
  | EAction.setupDone _ processTime _ => 0 ≤ processTime
  | _ => True

/-- The queue is heap-ordered and only holds events at or after the clock,
with nonnegative captured durations. -/
def QueueOk (s : SimState) : Prop :=
  heapLe s.eventQueue ∧ ∀ e ∈ s.eventQueue, s.currentTime ≤ e.time ∧ actionNonneg e.action

/-- The configured stage and setup durations are nonnegative (true of the
constructor's constants and preserved by every default-insertion). -/
def TimesNonneg (s : SimState) : Prop :=
  (∀ kv ∈ s.processingTimes, ∀ t ∈ kv.2, 0 ≤ t) ∧
  (∀ kv ∈ s.machineSetupTimes, 0 ≤ kv.2) ∧
  0 ≤ s.shiftLength

/-- Event actions that can exist in a run of the shipped configuration:
self-rescheduling arrivals and shift changes. -/
def arrOrShift : EAction → Prop
  | EAction.rawMaterialArrival _ => True
  | EAction.shiftChange => True
  | _ => False

/-- No stage name has a positive availability or capacity, and the queue holds
only arrival and shift-change events.  This is the shape of every state the
shipped configurations can reach: the availability map is keyed by
`machines` and `operators` while `handleNextStage` asks for the stage names,
so acquisition always fails. -/
def Stalled (s : SimState) : Prop :=
  (∀ i : Nat, mapGetD s.availableResources (getStageName i) 0 ≤ 0) ∧
  (∀ i : Nat, mapGetD s.resources (getStageName i) 0 ≤ 0) ∧
  (∀ e ∈ s.eventQueue, arrOrShift e.action)

/-- Cumulative arrival times: the `m`-th raw-material arrival fires at the sum
of the first `m + 1` interarrival samples. -/
def arrivalTime (stream : Nat → Time) : Nat → Time
  | 0 => stream 0
  | m + 1 => arrivalTime stream m + stream (m + 1)

/-- The pending `m`-th arrival event. -/
def arrivalEvent (stream : Nat → Time) (m : Nat) : Event :=
  ⟨arrivalTime stream m, "raw_material_arrival", EAction.rawMaterialArrival "ProductA"⟩

/-- The pending `k`-th shift-change event (fires at `8 * (k + 1)`). -/
def shiftEvent (k : Nat) : Event :=
  ⟨8 * ((k : Time) + 1), "shift_change", EAction.shiftChange⟩

/-- With bound `24`, the shift-change times still to fire after `k` of them
have fired. -/
def remainingShiftTimes : Nat → List Time
  | 0 => [8, 16, 24]
  | 1 => [16, 24]
  | 2 => [24]
  | _ + 3 => []

/-! ## Lemmas about the association-list map operations -/

theorem mapFind_mem {m : List (String × α)} {k : String} {v : α}
    (h : mapFind m k = some v) : (k, v) ∈ m := by
  induction m with
  | nil => simp [mapFind] at h
  | cons kv rest ih =>
    obtain ⟨k', v'⟩ := kv
    by_cases hk : k' = k
    · subst hk
      simp [mapFind] at h
      simp [h]
    · simp [mapFind, hk] at h
      exact List.mem_cons_of_mem _ (ih h)

theorem mapIndex_fst (m : List (String × α)) (k : String) (d : α) :
    (mapIndex m k d).1 = mapGetD m k d := by
  unfold mapIndex mapGetD
  cases mapFind m k <;> simp

theorem mapFind_append (m₁ m₂ : List (String × α)) (k : String) :
    mapFind (m₁ ++ m₂) k =
      match mapFind m₁ k with
      | some v => some v
      | none => mapFind m₂ k := by
  induction m₁ with
  | nil => simp [mapFind]
  | cons kv rest ih =>
    obtain ⟨k', v'⟩ := kv
    by_cases hk : k' = k <;> simp [mapFind, hk, ih]

theorem mapFind_mapIndex_snd (m : List (String × α)) (k k' : String) (d : α) :
    mapFind (mapIndex m k d).2 k' =
      match mapFind m k' with
      | some v => some v
      | none => if k = k' then some d else none := by
  unfold mapIndex
  cases hm : mapFind m k with
  | some v =>
    simp only
    cases hm' : mapFind m k' with
    | some w => rfl
    | none =>
      by_cases hk : k = k'
      · subst hk
        rw [hm] at hm'
        exact absurd hm' (by simp)
      · simp [hk]
  | none =>
    simp only [mapFind_append]
    cases hm' : mapFind m k' <;> simp [mapFind]

theorem mapGetD_mapIndex_snd (m : List (String × α)) (k k' : String) (d : α) :
    mapGetD (mapIndex m k d).2 k' d = mapGetD m k' d := by
  unfold mapGetD
  rw [mapFind_mapIndex_snd]
  cases mapFind m k' with
  | some v => rfl
  | none => by_cases hk : k = k' <;> simp [hk]

theorem mapFind_mapSet (m : List (String × α)) (k k' : String) (v : α) :
    mapFind (mapSet m k v) k' = if k = k' then some v else mapFind m k' := by
  induction m with
  | nil => by_cases hk : k = k' <;> simp [mapSet, mapFind, hk]
  | cons kv rest ih =>
    obtain ⟨k₀, v₀⟩ := kv
    by_cases h₀ : k₀ = k
    · subst h₀
      by_cases hk : k₀ = k' <;> simp [mapSet, mapFind, hk]
    · by_cases hk : k₀ = k'
      · subst hk
        have : ¬ k = k₀ := fun h => h₀ h.symm
        simp [mapSet, mapFind, h₀, this, ih]
      · simp [mapSet, mapFind, h₀, hk, ih]

theorem mapGetD_mapSet (m : List (String × α)) (k k' : String) (v d : α) :
    mapGetD (mapSet m k v) k' d = if k = k' then v else mapGetD m k' d := by
  unfold mapGetD
  rw [mapFind_mapSet]
  by_cases hk : k = k' <;> simp [hk]

theorem mem_mapSet {m : List (String × α)} {k : String} {v : α} :
    ∀ kv ∈ mapSet m k v, kv ∈ m ∨ kv = (k, v) := by
  induction m with
  | nil => simp [mapSet]
  | cons kv₀ rest ih =>
    obtain ⟨k₀, v₀⟩ := kv₀
    intro kv hkv
    by_cases h₀ : k₀ = k
    · subst h₀
      simp only [mapSet, if_pos rfl] at hkv
      rcases List.mem_cons.mp hkv with h | h
      · exact Or.inr h
      · exact Or.inl (List.mem_cons_of_mem _ h)
    · simp only [mapSet, if_neg h₀] at hkv
      rcases List.mem_cons.mp hkv with h | h
      · exact Or.inl (by simp [h])
      · rcases ih kv h with h' | h'
        · exact Or.inl (List.mem_cons_of_mem _ h')
        · exact Or.inr h'

theorem mem_mapIndex_snd {m : List (String × α)} {k : String} {d : α} :
    ∀ kv ∈ (mapIndex m k d).2, kv ∈ m ∨ kv = (k, d) := by
  unfold mapIndex
  cases hm : mapFind m k with
  | some v => exact fun kv h => Or.inl h
  | none =>
    intro kv h
    rcases List.mem_append.mp h with h | h
    · exact Or.inl h
    · exact Or.inr (by simpa using h)

theorem mem_mapAdd [Zero α] [Add α] {m : List (String × α)} {k : String} {v : α} :
    ∀ kv ∈ mapAdd m k v, kv ∈ m ∨ kv = (k, mapGetD m k 0 + v) :=
  mem_mapSet

theorem mapGetD_nonneg {m : List (String × Int)} (h : ∀ kv ∈ m, 0 ≤ kv.2)
    (k : String) : 0 ≤ mapGetD m k 0 := by
  unfold mapGetD
  cases hm : mapFind m k with
  | some v => exact h _ (mapFind_mem hm)
  | none => simp

theorem mapGetD_time_nonneg {m : List (String × Time)}
    (h : ∀ kv ∈ m, 0 ≤ kv.2) (k : String) : 0 ≤ mapGetD m k 0 := by
  unfold mapGetD
  cases hm : mapFind m k with
  | some v => exact h _ (mapFind_mem hm)
  | none => simp

/-! ## Basic lemmas about the binary heap -/

theorem length_swapAt (a : List Event) (i j : Nat) :
    (swapAt a i j).length = a.length := by
  simp [swapAt]

theorem mem_swapAt {a : List Event} {i j : Nat}
    (hi : i < a.length) (hj : j < a.length) :
    ∀ x ∈ swapAt a i j, x ∈ a := by
  intro x hx
  simp only [swapAt] at hx
  rcases List.mem_or_eq_of_mem_set hx with hx | rfl
  · rcases List.mem_or_eq_of_mem_set hx with hx | rfl
    · exact hx
    · rw [List.getD_eq_getElem a default hj]
      exact List.getElem_mem hj
  · rw [List.getD_eq_getElem a default hi]
    exact List.getElem_mem hi

theorem length_siftUp : ∀ (fuel : Nat) (a : List Event) (i : Nat),
    (siftUp fuel a i).length = a.length := by
  intro fuel
  induction fuel with
  | zero => intro a i; rfl
  | succ fuel ih =>
    intro a i
    simp only [siftUp]
    split
    · rfl
    · split
      · rw [ih, length_swapAt]
      · rfl

theorem mem_siftUp : ∀ (fuel : Nat) (a : List Event) (i : Nat), i < a.length →
    ∀ x ∈ siftUp fuel a i, x ∈ a := by
  intro fuel
  induction fuel with
  | zero => intro a i _ x hx; exact hx
  | succ fuel ih =>
    intro a i hi x hx
    simp only [siftUp] at hx
    split at hx
    · exact hx
    · rename_i hi0
      split at hx
      · have hp : (i - 1) / 2 < a.length := by
          have : (i - 1) / 2 ≤ i - 1 := Nat.div_le_self _ _
          omega
        have hlen : i < (swapAt a ((i - 1) / 2) i).length := by
          rw [length_swapAt]; exact hi
        have hp' : (i - 1) / 2 < (swapAt a ((i - 1) / 2) i).length := by
          rw [length_swapAt]; exact hp
        exact mem_swapAt hp hi x (ih _ _ hp' x hx)
      · exact hx

theorem length_siftDown : ∀ (fuel : Nat) (a : List Event) (i : Nat),
    (siftDown fuel a i).length = a.length := by
  intro fuel
  induction fuel with
  | zero => intro a i; rfl
  | succ fuel ih =>
    intro a i
    simp only [siftDown]
    split
    · rw [ih, length_swapAt]
    · rfl

theorem mem_siftDown : ∀ (fuel : Nat) (a : List Event) (i : Nat),
    ∀ x ∈ siftDown fuel a i, x ∈ a := by
  intro fuel
  induction fuel with
  | zero => intro a i x hx; exact hx
  | succ fuel ih =>
    intro a i x hx
    simp only [siftDown] at hx
    split at hx
    · rename_i hcond
      exact mem_swapAt (by omega) hcond.2 x (ih _ _ x hx)
    · exact hx

theorem length_heapPush (a : List Event) (e : Event) :
    (heapPush a e).length = a.length + 1 := by
  unfold heapPush
  rw [length_siftUp]
  simp

theorem mem_heapPush {a : List Event} {e : Event} :
    ∀ x ∈ heapPush a e, x ∈ a ∨ x = e := by
  intro x hx
  unfold heapPush at hx
  have hi : a.length < (a ++ [e]).length := by simp
  have := mem_siftUp _ _ _ hi x hx
  rcases List.mem_append.mp this with h | h
  · exact Or.inl h
  · exact Or.inr (by simpa using h)

theorem length_heapPopBack (a : List Event) :
    (heapPopBack a).length = a.length - 1 := by
  unfold heapPopBack
  rw [length_siftDown, List.length_dropLast, length_swapAt]

theorem mem_heapPopBack {a : List Event} :
    ∀ x ∈ heapPopBack a, x ∈ a := by
  intro x hx
  unfold heapPopBack at hx
  have hx' := mem_siftDown _ _ _ x hx
  have hx'' := List.dropLast_subset _ hx'
  cases a with
  | nil =>
    simp [swapAt] at hx''
  | cons y l =>
    exact mem_swapAt (by simp) (by simp) x hx''

theorem heapPush_nil (e : Event) : heapPush [] e = [e] := rfl

theorem heapPush_singleton (a e : Event) :
    heapPush [a] e = if e.time < a.time then [e, a] else [a, e] := by
  simp only [heapPush, List.length_cons, List.length_nil, List.cons_append,
    List.nil_append, siftUp]
  norm_num [swapAt]

theorem heapTop_cons (a : Event) (l : List Event) : heapTop (a :: l) = a := rfl

theorem heapPopBack_singleton (a : Event) : heapPopBack [a] = [] := rfl

theorem heapPopBack_pair (a b : Event) : heapPopBack [a, b] = [b] := by
  simp only [heapPopBack, List.length_cons, List.length_nil, swapAt]
  norm_num [siftDown, pickChild]

/-! ## The heap ordering invariant and its preservation -/

theorem timeAt_swapAt_left {a : List Event} {i : Nat} (j : Nat) (hi : i < a.length) :
    timeAt (swapAt a i j) i = timeAt a j := by
  unfold timeAt swapAt
  by_cases hij : i = j
  · subst hij
    rw [List.getD_eq_getElem?_getD, List.getElem?_set_self', List.getD_eq_getElem?_getD]
    rw [List.getElem?_set_self']
    cases hx : a[i]? with
    | none => simp
    | some x =>
      have : i < a.length := hi
      simp
  · rw [List.getD_eq_getElem?_getD, List.getElem?_set_ne (by omega), List.getElem?_set_self']
    rw [List.getElem?_eq_getElem hi]
    simp

theorem timeAt_swapAt_right {a : List Event} {i : Nat} (j : Nat) (hj : j < a.length) :
    timeAt (swapAt a i j) j = timeAt a i := by
  unfold timeAt swapAt
  rw [List.getD_eq_getElem?_getD, List.getElem?_set_self']
  have hj' : j < (a.set i (a.getD j default)).length := by simpa using hj
  rw [List.getElem?_eq_getElem hj']
  simp

theorem timeAt_swapAt_other {a : List Event} {i j k : Nat}
    (hki : k ≠ i) (hkj : k ≠ j) :
    timeAt (swapAt a i j) k = timeAt a k := by
  unfold timeAt swapAt
  rw [List.getD_eq_getElem?_getD, List.getElem?_set_ne (fun h => hkj h.symm),
    List.getElem?_set_ne (fun h => hki h.symm), List.getD_eq_getElem?_getD]

theorem siftUpOk_swap {a : List Event} {i : Nat} (hi0 : i ≠ 0) (hi : i < a.length)
    (hok : SiftUpOk a i) (hlt : timeAt a i < timeAt a ((i - 1) / 2)) :
    SiftUpOk (swapAt a ((i - 1) / 2) i) ((i - 1) / 2) := by
  have hdiv : (i - 1) / 2 ≤ i - 1 := Nat.div_le_self _ _
  have hpi : (i - 1) / 2 < i := by omega
  have hplen : (i - 1) / 2 < a.length := by omega
  have tL : timeAt (swapAt a ((i - 1) / 2) i) ((i - 1) / 2) = timeAt a i :=
    timeAt_swapAt_left _ hplen
  have tR : timeAt (swapAt a ((i - 1) / 2) i) i = timeAt a ((i - 1) / 2) :=
    timeAt_swapAt_right _ hi
  constructor
  · intro j hj hjlen hjp
    rw [length_swapAt] at hjlen
    by_cases hji : j = i
    · subst hji
      have hq : (j - 1) / 2 = (j - 1) / 2 := rfl
      rw [tR, tL]
      exact hlt.le
    · have tj : timeAt (swapAt a ((i - 1) / 2) i) j = timeAt a j :=
        timeAt_swapAt_other hjp hji
      by_cases hqp : (j - 1) / 2 = (i - 1) / 2
      · rw [hqp, tL, tj]
        have h1 : timeAt a ((j - 1) / 2) ≤ timeAt a j := hok.1 j hj hjlen hji
        rw [hqp] at h1
        exact le_trans hlt.le h1
      · by_cases hqi : (j - 1) / 2 = i
        · rw [hqi, tR, tj]
          exact hok.2 (by omega) j hjlen hqi
        · have tq : timeAt (swapAt a ((i - 1) / 2) i) ((j - 1) / 2) = timeAt a ((j - 1) / 2) :=
            timeAt_swapAt_other hqp hqi
          rw [tq, tj]
          exact hok.1 j hj hjlen hji
  · intro hp0 j hjlen hqp
    rw [length_swapAt] at hjlen
    have hq2 : ((i - 1) / 2 - 1) / 2 ≠ (i - 1) / 2 := by
      have := Nat.div_le_self ((i - 1) / 2 - 1) 2
      omega
    have hq2i : ((i - 1) / 2 - 1) / 2 ≠ i := by
      have := Nat.div_le_self ((i - 1) / 2 - 1) 2
      omega
    have tq : timeAt (swapAt a ((i - 1) / 2) i) (((i - 1) / 2 - 1) / 2) =
        timeAt a (((i - 1) / 2 - 1) / 2) := timeAt_swapAt_other hq2 hq2i
    have hedge : timeAt a (((i - 1) / 2 - 1) / 2) ≤ timeAt a ((i - 1) / 2) :=
      hok.1 ((i - 1) / 2) hp0 hplen (by omega)
    by_cases hji : j = i
    · subst hji
      rw [tq, tR]
      exact hedge
    · have hjne : j ≠ (i - 1) / 2 := by omega
      have tj : timeAt (swapAt a ((i - 1) / 2) i) j = timeAt a j :=
        timeAt_swapAt_other hjne hji
      rw [tq, tj]
      have hj0 : 0 < j := by omega
      have h2 : timeAt a ((j - 1) / 2) ≤ timeAt a j := hok.1 j hj0 hjlen hji
      rw [hqp] at h2
      exact le_trans hedge h2

theorem siftUp_heapLe : ∀ (fuel : Nat) (a : List Event) (i : Nat),
    i < fuel → i < a.length → SiftUpOk a i → heapLe (siftUp fuel a i) := by
  intro fuel
  induction fuel with
  | zero => intro a i hfuel; omega
  | succ fuel ih =>
    intro a i hfuel hi hok
    simp only [siftUp]
    split
    · rename_i hi0
      intro j hj hjlen
      exact hok.1 j hj hjlen (by omega)
    · rename_i hi0
      split
      · rename_i hlt
        have hdiv : (i - 1) / 2 ≤ i - 1 := Nat.div_le_self _ _
        refine ih _ _ (by omega) (by rw [length_swapAt]; omega) ?_
        exact siftUpOk_swap hi0 hi hok hlt
      · rename_i hge
        intro j hj hjlen
        by_cases hji : j = i
        · subst hji
          exact not_lt.mp hge
        · exact hok.1 j hj hjlen hji

theorem heapLe_heapPush {a : List Event} (h : heapLe a) (e : Event) :
    heapLe (heapPush a e) := by
  unfold heapPush
  have happ : ∀ k, k < a.length → timeAt (a ++ [e]) k = timeAt a k := by
    intro k hk
    unfold timeAt
    rw [List.getD_append _ _ _ _ hk]
  refine siftUp_heapLe _ _ _ (by omega) (by simp) ⟨?_, ?_⟩
  · intro j hj hjlen hjne
    have hjlen' : j < a.length := by
      simp only [List.length_append, List.length_cons, List.length_nil] at hjlen
      omega
    have hq : (j - 1) / 2 ≤ j - 1 := Nat.div_le_self _ _
    rw [happ j hjlen', happ _ (by omega)]
    exact h j hj hjlen'
  · intro h0 j hjlen hq
    have : (j - 1) / 2 ≤ j - 1 := Nat.div_le_self _ _
    simp only [List.length_append, List.length_cons, List.length_nil] at hjlen
    omega

theorem pickChild_ge (a : List Event) (i : Nat) : i ≤ pickChild a i := by
  simp only [pickChild]
  split <;> split <;> omega

theorem pickChild_spec {a : List Event} {i : Nat} (h : pickChild a i ≠ i) :
    (pickChild a i = 2 * i + 1 ∨ pickChild a i = 2 * i + 2) ∧
    pickChild a i < a.length ∧
    timeAt a (pickChild a i) < timeAt a i ∧
    (∀ j, (j = 2 * i + 1 ∨ j = 2 * i + 2) → j < a.length →
      timeAt a (pickChild a i) ≤ timeAt a j) := by
  revert h
  simp only [pickChild, timeAt]
  split
  · rename_i h1
    split
    · rename_i h2
      intro _
      refine ⟨Or.inr rfl, h2.1, lt_trans h2.2 h1.2, ?_⟩
      intro j hj hjlen
      rcases hj with rfl | rfl
      · exact h2.2.le
      · exact le_refl _
    · rename_i h2
      intro _
      refine ⟨Or.inl rfl, h1.1, h1.2, ?_⟩
      intro j hj hjlen
      rcases hj with rfl | rfl
      · exact le_refl _
      · by_cases hr : (a.getD (2 * i + 2) default).time < (a.getD (2 * i + 1) default).time
        · exact absurd ⟨hjlen, hr⟩ h2
        · exact not_lt.mp hr
  · rename_i h1
    split
    · rename_i h2
      intro _
      refine ⟨Or.inr rfl, h2.1, h2.2, ?_⟩
      intro j hj hjlen
      rcases hj with rfl | rfl
      · by_cases hl : (a.getD (2 * i + 1) default).time < (a.getD i default).time
        · exact absurd ⟨hjlen, hl⟩ h1
        · exact le_trans h2.2.le (not_lt.mp hl)
      · exact le_refl _
    · intro h
      exact absurd rfl h

theorem pickChild_eq_self {a : List Event} {i : Nat} (h : pickChild a i = i) :
    ∀ j, (j = 2 * i + 1 ∨ j = 2 * i + 2) → j < a.length →
      timeAt a i ≤ timeAt a j := by
  revert h
  simp only [pickChild, timeAt]
  split
  · rename_i h1
    split
    · rename_i h2
      intro h; omega
    · intro h; omega
  · rename_i h1
    split
    · rename_i h2
      intro h; omega
    · rename_i h2
      intro _ j hj hjlen
      rcases hj with rfl | rfl
      · by_cases hl : (a.getD (2 * i + 1) default).time < (a.getD i default).time
        · exact absurd ⟨hjlen, hl⟩ h1
        · exact not_lt.mp hl
      · by_cases hr : (a.getD (2 * i + 2) default).time < (a.getD i default).time
        · exact absurd ⟨hjlen, hr⟩ h2
        · exact not_lt.mp hr

theorem siftDownOk_swap {a : List Event} {i : Nat} (hok : SiftDownOk a i)
    (hlt : i < pickChild a i) (hlen : pickChild a i < a.length) :
    SiftDownOk (swapAt a i (pickChild a i)) (pickChild a i) := by
  have hne : pickChild a i ≠ i := by omega
  obtain ⟨hchild, _, hcl, hmin⟩ := pickChild_spec hne
  have hparent : (pickChild a i - 1) / 2 = i := by omega
  have hilen : i < a.length := by omega
  have tL : timeAt (swapAt a i (pickChild a i)) i = timeAt a (pickChild a i) :=
    timeAt_swapAt_left _ hilen
  have tR : timeAt (swapAt a i (pickChild a i)) (pickChild a i) = timeAt a i :=
    timeAt_swapAt_right _ hlen
  constructor
  · intro j hj hjlen hjq
    rw [length_swapAt] at hjlen
    by_cases hjc : j = pickChild a i
    · subst hjc
      rw [hparent, tL, tR]
      exact hcl.le
    · by_cases hji : j = i
      · subst hji
        have hdivj : (j - 1) / 2 ≤ j - 1 := Nat.div_le_self _ _
        have tq : timeAt (swapAt a j (pickChild a j)) ((j - 1) / 2) =
            timeAt a ((j - 1) / 2) := timeAt_swapAt_other (by omega) (by omega)
        rw [tq, tL]
        exact hok.2 hj _ hlen hparent
      · have tj : timeAt (swapAt a i (pickChild a i)) j = timeAt a j :=
          timeAt_swapAt_other hji hjc
        by_cases hqi : (j - 1) / 2 = i
        · have hjch : j = 2 * i + 1 ∨ j = 2 * i + 2 := by omega
          rw [hqi, tL, tj]
          exact hmin j hjch hjlen
        · have tq : timeAt (swapAt a i (pickChild a i)) ((j - 1) / 2) = timeAt a ((j - 1) / 2) :=
            timeAt_swapAt_other hqi hjq
          rw [tq, tj]
          exact hok.1 j hj hjlen hqi
  · intro hc0 j hjlen hjq
    rw [length_swapAt] at hjlen
    rw [hparent, tL]
    have hjgt : pickChild a i < j := by
      have : (j - 1) / 2 ≤ j - 1 := Nat.div_le_self _ _
      omega
    have tj : timeAt (swapAt a i (pickChild a i)) j = timeAt a j :=
      timeAt_swapAt_other (by omega) (by omega)
    rw [tj]
    have hedge : timeAt a ((j - 1) / 2) ≤ timeAt a j :=
      hok.1 j (by omega) hjlen (by omega)
    rw [hjq] at hedge
    exact hedge

theorem siftDown_heapLe : ∀ (fuel : Nat) (a : List Event) (i : Nat),
    a.length ≤ fuel + i → SiftDownOk a i → heapLe (siftDown fuel a i) := by
  intro fuel
  induction fuel with
  | zero =>
    intro a i hfuel hok
    have hz : siftDown 0 a i = a := rfl
    rw [hz]
    intro j hj hjlen
    refine hok.1 j hj hjlen ?_
    have : (j - 1) / 2 ≤ j - 1 := Nat.div_le_self _ _
    omega
  | succ fuel ih =>
    intro a i hfuel hok
    simp only [siftDown]
    split
    · rename_i hcond
      refine ih _ _ ?_ (siftDownOk_swap hok hcond.1 hcond.2)
      rw [length_swapAt]
      omega
    · rename_i hcond
      have hself : pickChild a i = i := by
        by_contra hne
        obtain ⟨hchild, hlen, _, _⟩ := pickChild_spec hne
        exact hcond ⟨by omega, hlen⟩
      intro j hj hjlen
      by_cases hqi : (j - 1) / 2 = i
      · have hjch : j = 2 * i + 1 ∨ j = 2 * i + 2 := by omega
        rw [hqi]
        exact pickChild_eq_self hself j hjch hjlen
      · exact hok.1 j hj hjlen hqi

theorem timeAt_dropLast {a : List Event} {k : Nat} (hk : k + 1 < a.length) :
    timeAt a.dropLast k = timeAt a k := by
  unfold timeAt
  rw [List.getD_eq_getElem?_getD, List.getD_eq_getElem?_getD, List.getElem?_dropLast,
    if_pos (show k < a.length - 1 by omega)]

theorem heapLe_heapPopBack {a : List Event} (h : heapLe a) :
    heapLe (heapPopBack a) := by
  unfold heapPopBack
  refine siftDown_heapLe _ _ _ ?_ ⟨?_, ?_⟩
  · simp only [List.length_dropLast, length_swapAt]
    omega
  · intro j hj hjlen hjq
    simp only [List.length_dropLast, length_swapAt] at hjlen
    have hq : (j - 1) / 2 ≤ j - 1 := Nat.div_le_self _ _
    have e1 : timeAt (swapAt a 0 (a.length - 1)).dropLast j = timeAt a j := by
      rw [timeAt_dropLast (by rw [length_swapAt]; omega)]
      exact timeAt_swapAt_other (by omega) (by omega)
    have e2 : timeAt (swapAt a 0 (a.length - 1)).dropLast ((j - 1) / 2) =
        timeAt a ((j - 1) / 2) := by
      rw [timeAt_dropLast (by rw [length_swapAt]; omega)]
      exact timeAt_swapAt_other hjq (by omega)
    rw [e1, e2]
    exact h j hj (by omega)
  · intro h0
    omega

theorem heapLe_root_min {a : List Event} (h : heapLe a) :
    ∀ j, j < a.length → timeAt a 0 ≤ timeAt a j := by
  intro j
  induction j using Nat.strong_induction_on with
  | _ j ih =>
    intro hj
    rcases Nat.eq_zero_or_pos j with rfl | hpos
    · exact le_refl _
    · have hq : (j - 1) / 2 < j := by
        have : (j - 1) / 2 ≤ j - 1 := Nat.div_le_self _ _
        omega
      exact le_trans (ih _ hq (by omega)) (h j hpos hj)

theorem heapTop_le_of_mem {a : List Event} (h : heapLe a) :
    ∀ e ∈ a, (heapTop a).time ≤ e.time := by
  intro e he
  obtain ⟨j, hj, rfl⟩ := List.mem_iff_getElem.mp he
  have h0 : (heapTop a).time = timeAt a 0 := rfl
  have hgj : timeAt a j = a[j].time := by
    unfold timeAt
    rw [List.getD_eq_getElem a default hj]
  rw [h0, ← hgj]
  exact heapLe_root_min h j hj

theorem heapTop_mem {a : List Event} (h : a ≠ []) : heapTop a ∈ a := by
  cases a with
  | nil => exact absurd rfl h
  | cons x l => exact List.mem_cons_self x l

/-! ## Branch characterizations of the handlers -/

theorem handleNextStage_out (product : Product) (s : SimState)
    (h : ¬ product.intermediateStage < (mapIndex s.processingTimes product.type []).1.length) :
    handleNextStage product s =
      { s with processingTimes := (mapIndex s.processingTimes product.type []).2 } := by
  simp only [handleNextStage]
  rw [if_neg h]

/-- The waiting branch of `handleNextStage`: no available resource.  Only the
processing-times map (possibly default-grown), the availability map (possibly
default-grown by the read) and the waiting-time accumulator change; in
particular no event is scheduled. -/
theorem handleNextStage_fail (product : Product) (s : SimState)
    (hidx : product.intermediateStage < (mapIndex s.processingTimes product.type []).1.length)
    (hav : (mapIndex s.availableResources (getStageName product.intermediateStage) 0).1 ≤ 0) :
    handleNextStage product s = { s with
      processingTimes := (mapIndex s.processingTimes product.type []).2,
      availableResources := (mapIndex s.availableResources (getStageName product.intermediateStage) 0).2,
      resourceWaitingTime := mapAdd s.resourceWaitingTime (getStageName product.intermediateStage)
        ((mapIndex s.processingTimes product.type []).1.getD product.intermediateStage 0) } := by
  simp only [handleNextStage]
  rw [if_pos hidx, if_neg (not_lt.mpr hav)]

/-- The acquisition branch of `handleNextStage`: a resource is available.  The
availability count is decremented, a `"setup"` event is pushed at
`currentTime + setupTime`, and `setupTime` (nonzero only for stage 0) is added
to the stage's busy-time accumulator at schedule time. -/
theorem handleNextStage_succ (product : Product) (s : SimState)
    (hidx : product.intermediateStage < (mapIndex s.processingTimes product.type []).1.length)
    (hav : 0 < (mapIndex s.availableResources (getStageName product.intermediateStage) 0).1) :
    handleNextStage product s = { s with
      eventQueue := heapPush s.eventQueue
        ⟨s.currentTime + (if product.intermediateStage = 0
            then (mapIndex s.machineSetupTimes product.type 0).1 else 0), "setup",
          EAction.setupDone product
            ((mapIndex s.processingTimes product.type []).1.getD product.intermediateStage 0)
            (getStageName product.intermediateStage)⟩,
      processingTimes := (mapIndex s.processingTimes product.type []).2,
      availableResources :=
        mapSet (mapIndex s.availableResources (getStageName product.intermediateStage) 0).2
          (getStageName product.intermediateStage)
          ((mapIndex s.availableResources (getStageName product.intermediateStage) 0).1 - 1),
      machineSetupTimes := (if product.intermediateStage = 0
        then (mapIndex s.machineSetupTimes product.type 0).2 else s.machineSetupTimes),
      resourceUsageTime := mapAdd s.resourceUsageTime (getStageName product.intermediateStage)
        (if product.intermediateStage = 0
          then (mapIndex s.machineSetupTimes product.type 0).1 else 0) } := by
  simp only [handleNextStage, scheduleEvent]
  rw [if_pos hidx, if_pos hav]
  by_cases h0 : product.intermediateStage = 0 <;> simp [h0]

theorem handleRawMaterialArrival_eq (stream : Nat → Time) (productType : String)
    (s : SimState) :
    handleRawMaterialArrival stream productType s =
      handleNextStage ⟨productType, 0⟩
        (scheduleEvent
          { s with rawMaterialCount := s.rawMaterialCount + 1,
                   productQueue := s.productQueue ++ [⟨productType, 0⟩],
                   rngIndex := s.rngIndex + 1 }
          (s.currentTime + stream s.rngIndex) "raw_material_arrival"
          (EAction.rawMaterialArrival productType)) := rfl

theorem handleShiftChange_eq (s : SimState) :
    handleShiftChange s = { s with
      availableResources := s.resources,
      eventQueue := heapPush s.eventQueue
        ⟨s.currentTime + (s.shiftLength : Time), "shift_change", EAction.shiftChange⟩ } := rfl

theorem completeStage_eq (product : Product) (s : SimState) :
    completeStage product s =
      if (mapIndex s.processingTimes product.type []).1.length ≤ product.intermediateStage + 1
      then { s with
        availableResources := mapAdd s.availableResources (getStageName product.intermediateStage) 1,
        processingTimes := (mapIndex s.processingTimes product.type []).2,
        finishedProducts := s.finishedProducts + 1,
        finishedProductsPerType := mapAdd s.finishedProductsPerType product.type 1 }
      else handleNextStage { product with intermediateStage := product.intermediateStage + 1 }
        { s with
          availableResources := mapAdd s.availableResources (getStageName product.intermediateStage) 1,
          processingTimes := (mapIndex s.processingTimes product.type []).2 } := rfl

/-! ## Invariant: availability counts never go negative -/

theorem availNonneg_mapAdd_one {m : List (String × Int)} (h : ∀ kv ∈ m, 0 ≤ kv.2)
    (k : String) : ∀ kv ∈ mapAdd m k 1, 0 ≤ kv.2 := by
  intro kv hkv
  rcases mem_mapAdd kv hkv with hm | rfl
  · exact h kv hm
  · have := mapGetD_nonneg h k
    simp only
    omega

theorem availNonneg_handleNextStage (product : Product) (s : SimState)
    (h : AvailNonneg s) : AvailNonneg (handleNextStage product s) := by
  by_cases hidx : product.intermediateStage < (mapIndex s.processingTimes product.type []).1.length
  · rcases le_or_lt (mapIndex s.availableResources (getStageName product.intermediateStage) 0).1 0
      with hle | hpos
    · rw [handleNextStage_fail product s hidx hle]
      refine ⟨?_, h.2⟩
      intro kv hkv
      rcases mem_mapIndex_snd kv hkv with hm | rfl
      · exact h.1 kv hm
      · simp
    · rw [handleNextStage_succ product s hidx hpos]
      refine ⟨?_, h.2⟩
      intro kv hkv
      rcases mem_mapSet kv hkv with hm | rfl
      · rcases mem_mapIndex_snd kv hm with hm' | rfl
        · exact h.1 kv hm'
        · simp
      · rw [mapIndex_fst] at hpos ⊢
        simp only
        omega
  · rw [handleNextStage_out product s hidx]
    exact ⟨h.1, h.2⟩

theorem availNonneg_execAction (stream : Nat → Time) (act : EAction) (s : SimState)
    (h : AvailNonneg s) : AvailNonneg (execAction stream act s) := by
  cases act with
  | rawMaterialArrival t =>
    rw [show execAction stream (EAction.rawMaterialArrival t) s =
      handleRawMaterialArrival stream t s from rfl, handleRawMaterialArrival_eq]
    exact availNonneg_handleNextStage _ _ ⟨h.1, h.2⟩
  | setupDone product processTime stage =>
    exact ⟨h.1, h.2⟩
  | stageDone product =>
    rw [show execAction stream (EAction.stageDone product) s = completeStage product s from rfl,
      completeStage_eq]
    split
    · exact ⟨availNonneg_mapAdd_one h.1 _, h.2⟩
    · exact availNonneg_handleNextStage _ _ ⟨availNonneg_mapAdd_one h.1 _, h.2⟩
  | maintenance r =>
    exact ⟨availNonneg_mapAdd_one h.1 r, h.2⟩
  | shiftChange =>
    rw [show execAction stream EAction.shiftChange s = handleShiftChange s from rfl,
      handleShiftChange_eq]
    exact ⟨h.2, h.2⟩

theorem availNonneg_runLoop (stream : Nat → Time) (runTime : Time) :
    ∀ (fuel : Nat) (s : SimState), AvailNonneg s →
      AvailNonneg (runLoop stream runTime fuel s).1 := by
  intro fuel
  induction fuel with
  | zero => intro s h; exact h
  | succ fuel ih =>
    intro s h
    simp only [runLoop]
    split
    · exact ih _ (availNonneg_execAction _ _ _ ⟨h.1, h.2⟩)
    · exact h

/-! ## Invariant: pending events are in the future and the queue is a heap -/

theorem processTime_nonneg {m : List (String × List Time)}
    (h : ∀ kv ∈ m, ∀ t ∈ kv.2, 0 ≤ t) (k : String) (idx : Nat) :
    0 ≤ (mapIndex m k []).1.getD idx 0 := by
  rw [mapIndex_fst]
  unfold mapGetD
  cases hm : mapFind m k with
  | none => simp
  | some l =>
    simp only [Option.getD_some]
    by_cases hidx : idx < l.length
    · rw [List.getD_eq_getElem l 0 hidx]
      exact h (k, l) (mapFind_mem hm) _ (List.getElem_mem hidx)
    · rw [List.getD_eq_default]
      omega

theorem setupTime_nonneg {m : List (String × Time)} (h : ∀ kv ∈ m, 0 ≤ kv.2)
    (k : String) : 0 ≤ (mapIndex m k 0).1 := by
  rw [mapIndex_fst]
  exact mapGetD_time_nonneg h k

theorem timesNonneg_pt_snd {m : List (String × List Time)}
    (h : ∀ kv ∈ m, ∀ t ∈ kv.2, 0 ≤ t) (k : String) :
    ∀ kv ∈ (mapIndex m k []).2, ∀ t ∈ kv.2, 0 ≤ t := by
  intro kv hkv
  rcases mem_mapIndex_snd kv hkv with hm | rfl
  · exact h kv hm
  · simp

theorem timesNonneg_mst_snd {m : List (String × Time)} (h : ∀ kv ∈ m, 0 ≤ kv.2)
    (k : String) : ∀ kv ∈ (mapIndex m k 0).2, 0 ≤ kv.2 := by
  intro kv hkv
  rcases mem_mapIndex_snd kv hkv with hm | rfl
  · exact h kv hm
  · simp

theorem queueOk_handleNextStage (product : Product) (s : SimState)
    (hq : QueueOk s) (ht : TimesNonneg s) :
    QueueOk (handleNextStage product s) ∧ TimesNonneg (handleNextStage product s) ∧
      (handleNextStage product s).currentTime = s.currentTime := by
  by_cases hidx : product.intermediateStage < (mapIndex s.processingTimes product.type []).1.length
  · rcases le_or_lt (mapIndex s.availableResources (getStageName product.intermediateStage) 0).1 0
      with hle | hpos
    · rw [handleNextStage_fail product s hidx hle]
      exact ⟨⟨hq.1, hq.2⟩, ⟨timesNonneg_pt_snd ht.1 _, ht.2.1, ht.2.2⟩, rfl⟩
    · rw [handleNextStage_succ product s hidx hpos]
      have hsetup : 0 ≤ (if product.intermediateStage = 0
          then (mapIndex s.machineSetupTimes product.type 0).1 else 0) := by
        split
        · exact setupTime_nonneg ht.2.1 _
        · exact le_refl 0
      refine ⟨⟨heapLe_heapPush hq.1 _, ?_⟩, ⟨timesNonneg_pt_snd ht.1 _, ?_, ht.2.2⟩, rfl⟩
      · intro e he
        rcases mem_heapPush e he with hm | rfl
        · exact hq.2 e hm
        · exact ⟨by simpa using hsetup, processTime_nonneg ht.1 _ _⟩
      · split
        · exact timesNonneg_mst_snd ht.2.1 _
        · exact ht.2.1
  · rw [handleNextStage_out product s hidx]
    exact ⟨⟨hq.1, hq.2⟩, ⟨timesNonneg_pt_snd ht.1 _, ht.2.1, ht.2.2⟩, rfl⟩

theorem queueOk_execAction (stream : Nat → Time) (hstream : ∀ n, 0 ≤ stream n)
    (act : EAction) (s : SimState) (hq : QueueOk s) (ht : TimesNonneg s)
    (ha : actionNonneg act) :
    QueueOk (execAction stream act s) ∧ TimesNonneg (execAction stream act s) ∧
      (execAction stream act s).currentTime = s.currentTime := by
  cases act with
  | rawMaterialArrival t =>
    rw [show execAction stream (EAction.rawMaterialArrival t) s =
      handleRawMaterialArrival stream t s from rfl, handleRawMaterialArrival_eq]
    refine queueOk_handleNextStage _ _ ⟨heapLe_heapPush hq.1 _, ?_⟩ ⟨ht.1, ht.2.1, ht.2.2⟩
    intro e he
    rcases mem_heapPush e he with hm | rfl
    · exact hq.2 e hm
    · refine ⟨?_, trivial⟩
      show s.currentTime ≤ s.currentTime + stream s.rngIndex
      have := hstream s.rngIndex
      linarith
  | setupDone product processTime stage =>
    refine ⟨⟨heapLe_heapPush hq.1 _, ?_⟩, ⟨ht.1, ht.2.1, ht.2.2⟩, rfl⟩
    intro e he
    rcases mem_heapPush e he with hm | rfl
    · exact hq.2 e hm
    · refine ⟨?_, trivial⟩
      show s.currentTime ≤ s.currentTime + processTime
      have hpt : 0 ≤ processTime := ha
      linarith
  | stageDone product =>
    rw [show execAction stream (EAction.stageDone product) s = completeStage product s from rfl,
      completeStage_eq]
    split
    · exact ⟨⟨hq.1, hq.2⟩, ⟨timesNonneg_pt_snd ht.1 _, ht.2.1, ht.2.2⟩, rfl⟩
    · exact queueOk_handleNextStage _ _ ⟨hq.1, hq.2⟩ ⟨timesNonneg_pt_snd ht.1 _, ht.2.1, ht.2.2⟩
  | maintenance r =>
    exact ⟨⟨hq.1, hq.2⟩, ⟨ht.1, ht.2.1, ht.2.2⟩, rfl⟩
  | shiftChange =>
    rw [show execAction stream EAction.shiftChange s = handleShiftChange s from rfl,
      handleShiftChange_eq]
    refine ⟨⟨heapLe_heapPush hq.1 _, ?_⟩, ⟨ht.1, ht.2.1, ht.2.2⟩, rfl⟩
    intro e he
    rcases mem_heapPush e he with hm | rfl
    · exact hq.2 e hm
    · refine ⟨?_, trivial⟩
      simp only
      have : (0 : Time) ≤ (s.shiftLength : Time) := by
        exact_mod_cast ht.2.2
      linarith

/-- Along any run whose sample stream is nonnegative, the popped events are
at or after the starting clock and their times are monotonically
non-decreasing. -/
theorem runLoop_popped_sorted (stream : Nat → Time) (hstream : ∀ n, 0 ≤ stream n)
    (runTime : Time) :
    ∀ (fuel : Nat) (s : SimState), QueueOk s → TimesNonneg s →
      (∀ e ∈ (runLoop stream runTime fuel s).2, s.currentTime ≤ e.time) ∧
      ((runLoop stream runTime fuel s).2.map Event.time).Chain' (· ≤ ·) := by
  intro fuel
  induction fuel with
  | zero => intro s hq ht; simp [runLoop]
  | succ fuel ih =>
    intro s hq ht
    simp only [runLoop]
    split
    · rename_i hcond
      have hmem : heapTop s.eventQueue ∈ s.eventQueue := heapTop_mem hcond.1
      obtain ⟨hetime, hepay⟩ := hq.2 _ hmem
      set e := heapTop s.eventQueue with he
      set s1 : SimState := { s with eventQueue := heapPopBack s.eventQueue, currentTime := e.time } with hs1
      have hq1 : QueueOk s1 := by
        refine ⟨heapLe_heapPopBack hq.1, ?_⟩
        intro e' he'
        have hm' : e' ∈ s.eventQueue := mem_heapPopBack e' he'
        exact ⟨heapTop_le_of_mem hq.1 e' hm', (hq.2 e' hm').2⟩
      have ht1 : TimesNonneg s1 := ⟨ht.1, ht.2.1, ht.2.2⟩
      obtain ⟨hq2, ht2, htime2⟩ :=
        queueOk_execAction stream hstream e.action s1 hq1 ht1 hepay
      obtain ⟨ihall, ihchain⟩ := ih (execAction stream e.action s1) hq2 ht2
      have htime2' : (execAction stream e.action s1).currentTime = e.time := htime2
      constructor
      · intro e' he'
        simp only [List.mem_cons] at he'
        rcases he' with rfl | he'
        · exact hetime
        · have := ihall e' he'
          rw [htime2'] at this
          exact le_trans hetime this
      · simp only [List.map_cons]
        rw [List.chain'_cons']
        refine ⟨?_, ihchain⟩
        intro y hy
        rcases hl : (runLoop stream runTime fuel (execAction stream e.action s1)).2 with
          _ | ⟨e', tr⟩
        · rw [hl] at hy
          simp at hy
        · rw [hl] at hy
          simp only [List.map_cons, List.head?_cons, Option.mem_def, Option.some_inj] at hy
          subst hy
          have := ihall e' (by rw [hl]; exact List.mem_cons_self _ _)
          rw [htime2'] at this
          exact this
    · simp

/-! ## The heap operations permute the stored events -/

theorem set_getD_self {a : List Event} {i : Nat} (hi : i < a.length) :
    a.set i (a.getD i default) = a := by
  induction a generalizing i with
  | nil => simp at hi
  | cons x l ih =>
    cases i with
    | zero => simp [List.getD]
    | succ i =>
      simp only [List.length_cons, Nat.succ_lt_succ_iff] at hi
      simp only [List.set_cons_succ, List.getD_cons_succ]
      rw [ih hi]

theorem perm_cons_set {l : List Event} {j : Nat} (x : Event) (hj : j < l.length) :
    (l.getD j default :: l.set j x).Perm (x :: l) := by
  induction l generalizing j with
  | nil => simp at hj
  | cons y t ih =>
    cases j with
    | zero =>
      simp only [List.getD_cons_zero, List.set_cons_zero]
      exact List.Perm.swap x y t
    | succ j =>
      simp only [List.length_cons, Nat.succ_lt_succ_iff] at hj
      simp only [List.getD_cons_succ, List.set_cons_succ]
      exact ((List.Perm.swap _ _ _).trans
        (List.Perm.cons y (ih hj))).trans (List.Perm.swap _ _ _)

theorem swapAt_perm_lt : ∀ (a : List Event) (i j : Nat), i < j → j < a.length →
    ((a.set i (a.getD j default)).set j (a.getD i default)).Perm a := by
  intro a
  induction a with
  | nil => intro i j _ hj; simp at hj
  | cons x l ih =>
    intro i j hij hj
    cases i with
    | zero =>
      cases j with
      | zero => omega
      | succ j =>
        simp only [List.length_cons, Nat.succ_lt_succ_iff] at hj
        simp only [List.getD_cons_succ, List.set_cons_zero, List.getD_cons_zero,
          List.set_cons_succ]
        exact perm_cons_set x hj
    | succ i =>
      cases j with
      | zero => omega
      | succ j =>
        simp only [List.length_cons, Nat.succ_lt_succ_iff] at hj
        simp only [List.getD_cons_succ, List.set_cons_succ]
        exact List.Perm.cons x (ih i j (by omega) hj)

theorem swapAt_perm {a : List Event} {i j : Nat} (hi : i < a.length)
    (hj : j < a.length) : (swapAt a i j).Perm a := by
  rcases Nat.lt_trichotomy i j with hij | rfl | hij
  · exact swapAt_perm_lt a i j hij hj
  · unfold swapAt
    rw [List.set_set, set_getD_self hi]
  · have hcomm : swapAt a i j = swapAt a j i := by
      unfold swapAt
      rw [List.set_comm _ _ _ (by omega)]
    rw [hcomm]
    exact swapAt_perm_lt a j i hij hi

theorem siftUp_perm : ∀ (fuel : Nat) (a : List Event) (i : Nat), i < a.length →
    (siftUp fuel a i).Perm a := by
  intro fuel
  induction fuel with
  | zero => intro a i _; exact List.Perm.refl a
  | succ fuel ih =>
    intro a i hi
    simp only [siftUp]
    split
    · exact List.Perm.refl a
    · rename_i hi0
      split
      · have hp : (i - 1) / 2 < a.length := by
          have : (i - 1) / 2 ≤ i - 1 := Nat.div_le_self _ _
          omega
        refine List.Perm.trans (ih _ _ ?_) (swapAt_perm hp hi)
        rw [length_swapAt]
        exact hp
      · exact List.Perm.refl a

theorem heapPush_perm (a : List Event) (e : Event) :
    (heapPush a e).Perm (a ++ [e]) := by
  unfold heapPush
  exact siftUp_perm _ _ _ (by simp)

theorem mem_heapPush_self (a : List Event) (e : Event) : e ∈ heapPush a e :=
  (heapPush_perm a e).mem_iff.mpr (by simp)

theorem siftDown_perm : ∀ (fuel : Nat) (a : List Event) (i : Nat),
    (siftDown fuel a i).Perm a := by
  intro fuel
  induction fuel with
  | zero => intro a i; exact List.Perm.refl a
  | succ fuel ih =>
    intro a i
    simp only [siftDown]
    split
    · rename_i hcond
      exact List.Perm.trans (ih _ _) (swapAt_perm (by omega) hcond.2)
    · exact List.Perm.refl a

/-! ## Invariant: the shipped configurations never let a unit acquire a resource

In every configuration the program itself constructs, the availability map is
keyed by `"machines"`/`"operators"` while `handleNextStage` asks for the stage
names `"machining"`, `"assembly"`, `"quality_control"`, `"packaging"` — so the
acquisition test always reads a defaulted `0` and fails. -/

theorem stalled_handleNextStage (product : Product) (s : SimState) (h : Stalled s) :
    Stalled (handleNextStage product s) ∧
      (handleNextStage product s).finishedProducts = s.finishedProducts := by
  by_cases hidx : product.intermediateStage < (mapIndex s.processingTimes product.type []).1.length
  · have hav : (mapIndex s.availableResources (getStageName product.intermediateStage) 0).1 ≤ 0 := by
      rw [mapIndex_fst]
      exact h.1 product.intermediateStage
    rw [handleNextStage_fail product s hidx hav]
    refine ⟨⟨?_, h.2.1, h.2.2⟩, rfl⟩
    intro i
    show mapGetD (mapIndex s.availableResources (getStageName product.intermediateStage) 0).2
      (getStageName i) 0 ≤ 0
    rw [mapGetD_mapIndex_snd]
    exact h.1 i
  · rw [handleNextStage_out product s hidx]
    exact ⟨⟨h.1, h.2.1, h.2.2⟩, rfl⟩

theorem stalled_execAction (stream : Nat → Time) (act : EAction) (s : SimState)
    (h : Stalled s) (ha : arrOrShift act) :
    Stalled (execAction stream act s) ∧
      (execAction stream act s).finishedProducts = s.finishedProducts := by
  cases act with
  | rawMaterialArrival t =>
    rw [show execAction stream (EAction.rawMaterialArrival t) s =
      handleRawMaterialArrival stream t s from rfl, handleRawMaterialArrival_eq]
    refine stalled_handleNextStage _ _ ⟨h.1, h.2.1, ?_⟩
    intro e he
    rcases mem_heapPush e he with hm | rfl
    · exact h.2.2 e hm
    · trivial
  | setupDone product processTime stage => exact absurd ha (by simp [arrOrShift])
  | stageDone product => exact absurd ha (by simp [arrOrShift])
  | maintenance r => exact absurd ha (by simp [arrOrShift])
  | shiftChange =>
    rw [show execAction stream EAction.shiftChange s = handleShiftChange s from rfl,
      handleShiftChange_eq]
    refine ⟨⟨h.2.1, h.2.1, ?_⟩, rfl⟩
    intro e he
    rcases mem_heapPush e he with hm | rfl
    · exact h.2.2 e hm
    · trivial

theorem stalled_runLoop (stream : Nat → Time) (runTime : Time) :
    ∀ (fuel : Nat) (s : SimState), Stalled s →
      Stalled (runLoop stream runTime fuel s).1 ∧
        (runLoop stream runTime fuel s).1.finishedProducts = s.finishedProducts := by
  intro fuel
  induction fuel with
  | zero => intro s h; exact ⟨h, rfl⟩
  | succ fuel ih =>
    intro s h
    simp only [runLoop]
    split
    · rename_i hcond
      have hmem : heapTop s.eventQueue ∈ s.eventQueue := heapTop_mem hcond.1
      have ha : arrOrShift (heapTop s.eventQueue).action := h.2.2 _ hmem
      have h1 : Stalled { s with eventQueue := heapPopBack s.eventQueue, currentTime := (heapTop s.eventQueue).time } := by
        refine ⟨h.1, h.2.1, ?_⟩
        intro e he
        exact h.2.2 e (mem_heapPopBack e he)
      obtain ⟨h2, hfin2⟩ := stalled_execAction stream _ _ h1 ha
      obtain ⟨h3, hfin3⟩ := ih _ h2
      exact ⟨h3, by rw [hfin3, hfin2]⟩
    · exact ⟨h, rfl⟩

/-! ## Remaining helper lemmas for the claim theorems -/

theorem stageName_not_configured (i : Nat) (mc oc : Int) :
    mapFind [("machines", mc), ("operators", oc)] (getStageName i) = none :=
  match i with
  | 0 => rfl
  | 1 => rfl
  | 2 => rfl
  | 3 => rfl
  | _ + 4 => rfl

/-- A state whose resource maps give no stage name a positive count and whose
queue is empty keeps its finished-product count across `runSimulation`. -/
theorem runSimulation_finished_stalled (stream : Nat → Time) (runTime : Time)
    (fuel : Nat) (s : SimState)
    (h1 : ∀ i, mapGetD s.availableResources (getStageName i) 0 ≤ 0)
    (h2 : ∀ i, mapGetD s.resources (getStageName i) 0 ≤ 0)
    (h3 : s.eventQueue = []) :
    (runSimulation stream runTime fuel s).1.finishedProducts = s.finishedProducts := by
  simp only [runSimulation, scheduleEvent]
  refine (stalled_runLoop stream runTime fuel
    { s with eventQueue := heapPush (heapPush s.eventQueue ⟨stream s.rngIndex, "raw_material_arrival", EAction.rawMaterialArrival "ProductA"⟩) ⟨(s.shiftLength : Time), "shift_change", EAction.shiftChange⟩, rngIndex := s.rngIndex + 1 }
    ⟨h1, h2, ?_⟩).2
  intro e he
  simp only at he
  rcases mem_heapPush e he with hm | rfl
  · rw [h3] at hm
    rcases mem_heapPush e hm with hm2 | rfl
    · simp at hm2
    · trivial
  · trivial

theorem handleNextStage_currentTime (product : Product) (s : SimState) :
    (handleNextStage product s).currentTime = s.currentTime := by
  by_cases hidx : product.intermediateStage < (mapIndex s.processingTimes product.type []).1.length
  · rcases le_or_lt (mapIndex s.availableResources (getStageName product.intermediateStage) 0).1 0
      with hle | hpos
    · rw [handleNextStage_fail product s hidx hle]
    · rw [handleNextStage_succ product s hidx hpos]
  · rw [handleNextStage_out product s hidx]

theorem execAction_currentTime (stream : Nat → Time) (act : EAction) (s : SimState) :
    (execAction stream act s).currentTime = s.currentTime := by
  cases act with
  | rawMaterialArrival t =>
    rw [show execAction stream (EAction.rawMaterialArrival t) s =
      handleRawMaterialArrival stream t s from rfl, handleRawMaterialArrival_eq]
    exact handleNextStage_currentTime _ _
  | setupDone product processTime stage => rfl
  | stageDone product =>
    rw [show execAction stream (EAction.stageDone product) s = completeStage product s from rfl,
      completeStage_eq]
    split
    · rfl
    · exact handleNextStage_currentTime _ _
  | maintenance r => rfl
  | shiftChange => rfl

theorem runLoop_halted (stream : Nat → Time) (runTime : Time) (s : SimState)
    (h : ¬(s.eventQueue ≠ [] ∧ s.currentTime < runTime)) :
    ∀ fuel, runLoop stream runTime fuel s = (s, []) := by
  intro fuel
  cases fuel with
  | zero => rfl
  | succ fuel =>
    simp only [runLoop]
    rw [if_neg h]

/-! ## Claim theorems -/

/-- C1 (code is at fault): in the shipped scenario — capacities keyed
`machines`/`operators`, ProductA stage durations `[2.0,1.5,1.0,1.0]`, setup
`0.5`, any run bound and any arrival sample stream — the final
finished-product count of `runScenario` is `0`, never strictly positive:
`handleNextStage` looks availability up under the stage names
(`machining`, ...), which are never configured, so no unit ever acquires a
resource and none is ever finished.  This holds for every capacity choice,
bound, stream and fuel, so in particular for the claimed scenario
`runScenario 10 5 1000.0`. -/
theorem c1_runScenario_finished_zero (machineCount operatorCount : Int)
    (runTime : Time) (stream : Nat → Time) (fuel : Nat) :
    (runScenario machineCount operatorCount runTime stream fuel).1.finishedProducts = 0 := by
  unfold runScenario
  refine (runSimulation_finished_stalled stream runTime fuel _ ?_ ?_ rfl).trans rfl
  · intro i
    unfold mapGetD
    rw [show (setResources mkManufacturingSystem
      [("machines", machineCount), ("operators", operatorCount)]).availableResources =
      [("machines", machineCount), ("operators", operatorCount)] from rfl]
    rw [stageName_not_configured]
    simp
  · intro i
    unfold mapGetD
    rw [show (setResources mkManufacturingSystem
      [("machines", machineCount), ("operators", operatorCount)]).resources =
      [("machines", machineCount), ("operators", operatorCount)] from rfl]
    rw [stageName_not_configured]
    simp

/-- C2: every stage name produced by `getStageName` is absent from the
constructor's availability map (only `machines` and `operators` are
configured), and for any state and product whose stage name is absent from
the availability map, the `availableResources[stage]` read in
`handleNextStage` yields the defaulted value `0`, so acquisition fails, the
unit takes the waiting branch, and the read silently appends a zero-valued
entry for that name to the availability map; the function is total, so no
error of any kind is signalled. -/
theorem c2_absent_resource_defaults_zero :
    (∀ i : Nat, mapFind mkManufacturingSystem.availableResources (getStageName i) = none) ∧
    (∀ (s : SimState) (product : Product),
      mapFind s.availableResources (getStageName product.intermediateStage) = none →
      product.intermediateStage < (mapIndex s.processingTimes product.type []).1.length →
      handleNextStage product s = { s with
        processingTimes := (mapIndex s.processingTimes product.type []).2,
        availableResources :=
          s.availableResources ++ [(getStageName product.intermediateStage, 0)],
        resourceWaitingTime := mapAdd s.resourceWaitingTime
          (getStageName product.intermediateStage)
          ((mapIndex s.processingTimes product.type []).1.getD product.intermediateStage 0) }) := by
  constructor
  · intro i
    exact stageName_not_configured i 10 5
  · intro s product hfind hidx
    have hmi : mapIndex s.availableResources (getStageName product.intermediateStage) 0 =
        (0, s.availableResources ++ [(getStageName product.intermediateStage, 0)]) := by
      unfold mapIndex
      rw [hfind]
    have hav : (mapIndex s.availableResources (getStageName product.intermediateStage) 0).1 ≤ 0 := by
      rw [hmi]
    rw [handleNextStage_fail product s hidx hav, hmi]

/-- Witness for C2 at the constructor state and a fresh ProductA unit. -/
theorem c2_absent_resource_defaults_zero_witness :
    (handleNextStage ⟨"ProductA", 0⟩ mkManufacturingSystem).availableResources =
      [("machines", 10), ("operators", 5), ("machining", 0)] := by
  have h := c2_absent_resource_defaults_zero.2 mkManufacturingSystem ⟨"ProductA", 0⟩
    (by rfl) (by decide)
  rw [h]
  rfl

/-- C3 is refuted: the `available ≤ capacity` half of the invariant fails.
With capacity `machining = 1` (set through the public `setResources`, as the
scenario driver does) and an arrival at `t = 7`, the unit acquires the
resource, the `t = 8` shift change resets `available` to `1` while the unit
is mid-process, and the stage completion at `t = 9.5` increments it again:
after 4 events the available count is `2 > 1 = capacity`. -/
theorem c3_available_exceeds_capacity :
    mapGetD (runSimulation (fun n => if n = 0 then 7 else 100) 1000 4
        (setResources mkManufacturingSystem [("machining", 1)])).1.availableResources
      "machining" 0 = 2 ∧
    mapGetD (runSimulation (fun n => if n = 0 then 7 else 100) 1000 4
        (setResources mkManufacturingSystem [("machining", 1)])).1.resources
      "machining" 0 = 1 ∧
    mapGetD (runSimulation (fun n => if n = 0 then 7 else 100) 1000 4
        (setResources mkManufacturingSystem [("machining", 1)])).1.resources "machining" 0 <
      mapGetD (runSimulation (fun n => if n = 0 then 7 else 100) 1000 4
        (setResources mkManufacturingSystem [("machining", 1)])).1.availableResources
        "machining" 0 := by
  with_unfolding_all decide

/-- C3 amended: the lower half of the invariant holds — for nonnegative
configured capacities, every stored available count stays nonnegative at
every point of every run (acquisition is guarded by `available > 0`; releases
and resets only increase or reset to capacity).  The upper half
(`available ≤ capacity`) is false, see the counterexample: `completeStage`
and `handleMaintenance` increment without clamping after a shift reset. -/
theorem c3_available_never_negative (machineCount operatorCount : Int)
    (h1 : 0 ≤ machineCount) (h2 : 0 ≤ operatorCount) (runTime : Time)
    (stream : Nat → Time) (fuel : Nat) :
    ∀ kv ∈ (runScenario machineCount operatorCount runTime stream fuel).1.availableResources,
      0 ≤ kv.2 := by
  unfold runScenario runSimulation scheduleEvent
  refine (availNonneg_runLoop _ _ _ _ ⟨?_, ?_⟩).1
  · intro kv hkv
    have hh : kv = ("machines", machineCount) ∨ kv = ("operators", operatorCount) := by
      simpa [setResources] using hkv
    rcases hh with rfl | rfl
    · exact h1
    · exact h2
  · intro kv hkv
    have hh : kv = ("machines", machineCount) ∨ kv = ("operators", operatorCount) := by
      simpa [setResources] using hkv
    rcases hh with rfl | rfl
    · exact h1
    · exact h2

/-- Witness for the amended C3 at the shipped capacities and a concrete
stream: the machines count is still nonnegative after the run. -/
theorem c3_available_never_negative_witness :
    0 ≤ mapGetD (runScenario 10 5 1000 (fun _ => 100) 6).1.availableResources "machines" 0 :=
  mapGetD_nonneg
    (c3_available_never_negative 10 5 (by norm_num) (by norm_num) 1000 (fun _ => 100) 6)
    "machines"

/-- C5 is refuted: `scheduleEvent` performs no time validation and there is no
`InvalidTimeError` anywhere; scheduling strictly into the past still inserts
the event.  After one popped event the clock is at `8`; scheduling at `5`
grows the queue and the past-dated event is a member. -/
theorem c5_past_event_inserted :
    (runSimulation (fun _ => 100) 10 1 mkManufacturingSystem).1.currentTime = 8 ∧
    (scheduleEvent (runSimulation (fun _ => 100) 10 1 mkManufacturingSystem).1 5
        "maintenance" (EAction.maintenance "repair")).eventQueue.length =
      (runSimulation (fun _ => 100) 10 1 mkManufacturingSystem).1.eventQueue.length + 1 ∧
    (⟨5, "maintenance", EAction.maintenance "repair"⟩ : Event) ∈
      (scheduleEvent (runSimulation (fun _ => 100) 10 1 mkManufacturingSystem).1 5
        "maintenance" (EAction.maintenance "repair")).eventQueue := by
  with_unfolding_all decide

/-- C5 amended: `scheduleEvent` unconditionally pushes the event, for every
state and every time — earlier than the current time or not — growing the
queue by one, making the event a member, and never failing (the function is
total and touches no other field). -/
theorem c5_schedule_unconditional (s : SimState) (t : Time) (ty : String) (a : EAction) :
    (scheduleEvent s t ty a).eventQueue.length = s.eventQueue.length + 1 ∧
    (⟨t, ty, a⟩ : Event) ∈ (scheduleEvent s t ty a).eventQueue ∧
    (scheduleEvent s t ty a).currentTime = s.currentTime ∧
    (scheduleEvent s t ty a).finishedProducts = s.finishedProducts :=
  ⟨length_heapPush _ _, mem_heapPush_self _ _, rfl, rfl⟩

/-- C6: a failed acquisition adds exactly the stage's processing duration to
that stage's cumulative waiting-time accumulator and does nothing else: the
event queue is unchanged (so nothing is ever scheduled for the unit again —
the closures capture the unit by value and the failed call creates none),
every availability count keeps its value (the read can only append a
zero-valued entry for the missing key), and busy times, finished counters and
the clock are untouched. -/
theorem c6_failed_acquisition_waits_only (s : SimState) (product : Product)
    (hidx : product.intermediateStage < (mapIndex s.processingTimes product.type []).1.length)
    (hav : (mapIndex s.availableResources (getStageName product.intermediateStage) 0).1 ≤ 0) :
    (handleNextStage product s).eventQueue = s.eventQueue ∧
    (handleNextStage product s).resourceWaitingTime =
      mapAdd s.resourceWaitingTime (getStageName product.intermediateStage)
        ((mapIndex s.processingTimes product.type []).1.getD product.intermediateStage 0) ∧
    (∀ k, mapGetD (handleNextStage product s).availableResources k 0 =
      mapGetD s.availableResources k 0) ∧
    (handleNextStage product s).resourceUsageTime = s.resourceUsageTime ∧
    (handleNextStage product s).finishedProducts = s.finishedProducts ∧
    (handleNextStage product s).finishedProductsPerType = s.finishedProductsPerType ∧
    (handleNextStage product s).currentTime = s.currentTime := by
  rw [handleNextStage_fail product s hidx hav]
  refine ⟨rfl, rfl, ?_, rfl, rfl, rfl, rfl⟩
  intro k
  exact mapGetD_mapIndex_snd _ _ _ _

/-- Witness for C6 at the constructor state and a fresh ProductA unit. -/
theorem c6_failed_acquisition_waits_only_witness :
    (handleNextStage ⟨"ProductA", 0⟩ mkManufacturingSystem).eventQueue =
      mkManufacturingSystem.eventQueue ∧
    mapGetD (handleNextStage ⟨"ProductA", 0⟩ mkManufacturingSystem).availableResources
      "machining" 0 = mapGetD mkManufacturingSystem.availableResources "machining" 0 ∧
    (handleNextStage ⟨"ProductA", 0⟩ mkManufacturingSystem).finishedProducts =
      mkManufacturingSystem.finishedProducts := by
  obtain ⟨h1, _, h3, _, h5, _, _⟩ := c6_failed_acquisition_waits_only
    mkManufacturingSystem ⟨"ProductA", 0⟩ (by decide) (by decide)
  exact ⟨h1, h3 "machining", h5⟩

/-- C7: (i) for any stage other than index 0 the applied setup duration is
`0`, so a non-zero setup only ever applies at stage index 0; (ii) whenever an
acquisition succeeds, the setup duration is added to the stage's busy-time
accumulator in the very call that schedules the `"setup"` event (schedule
time, not firing time); (iii) the `"setup"` action adds the processing
duration to the busy-time accumulator at the moment it schedules the
stage-completion event, before that completion fires. -/
theorem c7_setup_and_busy_time_at_schedule :
    (∀ (s : SimState) (product : Product),
      product.intermediateStage ≠ 0 →
      ∀ (hidx : product.intermediateStage <
          (mapIndex s.processingTimes product.type []).1.length)
        (hav : 0 < (mapIndex s.availableResources
          (getStageName product.intermediateStage) 0).1),
      handleNextStage product s = { s with
        eventQueue := heapPush s.eventQueue
          ⟨s.currentTime, "setup",
            EAction.setupDone product
              ((mapIndex s.processingTimes product.type []).1.getD product.intermediateStage 0)
              (getStageName product.intermediateStage)⟩,
        processingTimes := (mapIndex s.processingTimes product.type []).2,
        availableResources :=
          mapSet (mapIndex s.availableResources (getStageName product.intermediateStage) 0).2
            (getStageName product.intermediateStage)
            ((mapIndex s.availableResources (getStageName product.intermediateStage) 0).1 - 1),
        resourceUsageTime := mapAdd s.resourceUsageTime
          (getStageName product.intermediateStage) 0 }) ∧
    (∀ (s : SimState) (product : Product)
      (hidx : product.intermediateStage <
        (mapIndex s.processingTimes product.type []).1.length)
      (hav : 0 < (mapIndex s.availableResources
        (getStageName product.intermediateStage) 0).1),
      (handleNextStage product s).resourceUsageTime =
        mapAdd s.resourceUsageTime (getStageName product.intermediateStage)
          (if product.intermediateStage = 0
            then (mapIndex s.machineSetupTimes product.type 0).1 else 0)) ∧
    (∀ (stream : Nat → Time) (s : SimState) (product : Product)
      (processTime : Time) (stage : String),
      execAction stream (EAction.setupDone product processTime stage) s = { s with
        resourceUsageTime := mapAdd s.resourceUsageTime stage processTime,
        eventQueue := heapPush s.eventQueue
          ⟨s.currentTime + processTime, stage, EAction.stageDone product⟩ }) := by
  refine ⟨?_, ?_, ?_⟩
  · intro s product h0 hidx hav
    rw [handleNextStage_succ product s hidx hav]
    simp [h0]
  · intro s product hidx hav
    rw [handleNextStage_succ product s hidx hav]
  · intro stream s product processTime stage
    rfl

/-- Witness for C7: a ProductA unit at stage 1 with an `assembly` resource
made available through the public setter (zero setup applied), and a concrete
setup action. -/
theorem c7_setup_and_busy_time_at_schedule_witness :
    (handleNextStage ⟨"ProductA", 1⟩
        (setAvailableResources mkManufacturingSystem [("assembly", 3)])).resourceUsageTime =
      mapAdd (setAvailableResources mkManufacturingSystem
        [("assembly", 3)]).resourceUsageTime "assembly" 0 ∧
    execAction (fun _ => 100) (EAction.setupDone ⟨"ProductA", 0⟩ 2 "machining")
        mkManufacturingSystem = { mkManufacturingSystem with
      resourceUsageTime := mapAdd mkManufacturingSystem.resourceUsageTime "machining" 2,
      eventQueue := heapPush mkManufacturingSystem.eventQueue
        ⟨mkManufacturingSystem.currentTime + 2, "machining",
          EAction.stageDone ⟨"ProductA", 0⟩⟩ } := by
  constructor
  · have h := c7_setup_and_busy_time_at_schedule.2.1
      (setAvailableResources mkManufacturingSystem [("assembly", 3)]) ⟨"ProductA", 1⟩
      (by decide) (by decide)
    rw [h]
    norm_num [getStageName]
  · exact c7_setup_and_busy_time_at_schedule.2.2 (fun _ => 100) mkManufacturingSystem
      ⟨"ProductA", 0⟩ 2 "machining"

/-- C8: the driver checks the bound only at the top of the loop against the
current clock; when the queue is non-empty, the clock is still below the
bound, and the earliest pending event is already at or past the bound, that
event is still popped, the clock is advanced to its (≥ bound) timestamp, its
action runs, and the loop then exits — the run's final clock equals that
event's time, at or past the bound. -/
theorem c8_bound_checked_at_loop_top (stream : Nat → Time) (runTime : Time)
    (fuel : Nat) (s : SimState) (hne : s.eventQueue ≠ [])
    (hlt : s.currentTime < runTime)
    (hbound : runTime ≤ (heapTop s.eventQueue).time) :
    runLoop stream runTime (fuel + 1) s =
      (execAction stream (heapTop s.eventQueue).action
        { s with eventQueue := heapPopBack s.eventQueue, currentTime := (heapTop s.eventQueue).time },
       [heapTop s.eventQueue]) ∧
    (runLoop stream runTime (fuel + 1) s).1.currentTime = (heapTop s.eventQueue).time ∧
    runTime ≤ (runLoop stream runTime (fuel + 1) s).1.currentTime := by
  have hcur : (execAction stream (heapTop s.eventQueue).action
      { s with eventQueue := heapPopBack s.eventQueue, currentTime := (heapTop s.eventQueue).time }).currentTime =
      (heapTop s.eventQueue).time :=
    execAction_currentTime _ _ _
  have hstop := runLoop_halted stream runTime
    (execAction stream (heapTop s.eventQueue).action
      { s with eventQueue := heapPopBack s.eventQueue, currentTime := (heapTop s.eventQueue).time })
    (by
      rw [not_and_or]
      right
      rw [not_lt, hcur]
      exact hbound) fuel
  have hmain : runLoop stream runTime (fuel + 1) s =
      (execAction stream (heapTop s.eventQueue).action
        { s with eventQueue := heapPopBack s.eventQueue, currentTime := (heapTop s.eventQueue).time },
       [heapTop s.eventQueue]) := by
    simp only [runLoop]
    rw [if_pos ⟨hne, hlt⟩, hstop]
  refine ⟨hmain, ?_, ?_⟩
  · rw [hmain]
    exact hcur
  · rw [hmain]
    rw [show (execAction stream (heapTop s.eventQueue).action
      { s with eventQueue := heapPopBack s.eventQueue, currentTime := (heapTop s.eventQueue).time },
      [heapTop s.eventQueue]).1 = execAction stream (heapTop s.eventQueue).action
      { s with eventQueue := heapPopBack s.eventQueue, currentTime := (heapTop s.eventQueue).time } from rfl]
    rw [hcur]
    exact hbound

/-- Witness for C8: one pending maintenance event at `t = 12` against bound
`10`: the event still fires and the clock ends at `12 ≥ 10`. -/
theorem c8_bound_checked_at_loop_top_witness :
    runLoop (fun _ => 100) 10 1
        (scheduleEvent mkManufacturingSystem 12 "maintenance" (EAction.maintenance "m1")) =
      (execAction (fun _ => 100)
        (heapTop (scheduleEvent mkManufacturingSystem 12 "maintenance"
          (EAction.maintenance "m1")).eventQueue).action
        { scheduleEvent mkManufacturingSystem 12 "maintenance" (EAction.maintenance "m1") with
          eventQueue := heapPopBack (scheduleEvent mkManufacturingSystem 12 "maintenance"
            (EAction.maintenance "m1")).eventQueue,
          currentTime := (heapTop (scheduleEvent mkManufacturingSystem 12 "maintenance"
            (EAction.maintenance "m1")).eventQueue).time },
       [heapTop (scheduleEvent mkManufacturingSystem 12 "maintenance"
         (EAction.maintenance "m1")).eventQueue]) ∧
    (10 : Time) ≤ (runLoop (fun _ => 100) 10 1
      (scheduleEvent mkManufacturingSystem 12 "maintenance"
        (EAction.maintenance "m1"))).1.currentTime := by
  obtain ⟨h1, _, h3⟩ := c8_bound_checked_at_loop_top (fun _ => 100) 10 0
    (scheduleEvent mkManufacturingSystem 12 "maintenance" (EAction.maintenance "m1"))
    (by decide) (by with_unfolding_all decide) (by with_unfolding_all decide)
  exact ⟨h1, h3⟩

/-- C10: the engine is a deterministic function of the seeded sample stream
and the configuration.  For any seed-to-stream function (the model of the
seeded `default_random_engine` composed with the distributions), equal seeds
and equal configurations (capacities and run bound; the stage lists and shift
length are compile-time constants) yield identical final busy-time,
waiting-time and finished-count accumulators. -/
theorem c10_same_seed_same_stats (sampleOfSeed : Nat → Nat → Time)
    (seed₁ seed₂ : Nat) (cfg₁ cfg₂ : List (String × Int)) (rt₁ rt₂ : Time)
    (fuel : Nat) (hseed : seed₁ = seed₂) (hcfg : cfg₁ = cfg₂) (hrt : rt₁ = rt₂) :
    (runSimulation (sampleOfSeed seed₁) rt₁ fuel
        (setResources mkManufacturingSystem cfg₁)).1.resourceUsageTime =
      (runSimulation (sampleOfSeed seed₂) rt₂ fuel
        (setResources mkManufacturingSystem cfg₂)).1.resourceUsageTime ∧
    (runSimulation (sampleOfSeed seed₁) rt₁ fuel
        (setResources mkManufacturingSystem cfg₁)).1.resourceWaitingTime =
      (runSimulation (sampleOfSeed seed₂) rt₂ fuel
        (setResources mkManufacturingSystem cfg₂)).1.resourceWaitingTime ∧
    (runSimulation (sampleOfSeed seed₁) rt₁ fuel
        (setResources mkManufacturingSystem cfg₁)).1.finishedProducts =
      (runSimulation (sampleOfSeed seed₂) rt₂ fuel
        (setResources mkManufacturingSystem cfg₂)).1.finishedProducts ∧
    (runSimulation (sampleOfSeed seed₁) rt₁ fuel
        (setResources mkManufacturingSystem cfg₁)).1.finishedProductsPerType =
      (runSimulation (sampleOfSeed seed₂) rt₂ fuel
        (setResources mkManufacturingSystem cfg₂)).1.finishedProductsPerType := by
  subst hseed
  subst hcfg
  subst hrt
  exact ⟨rfl, rfl, rfl, rfl⟩

/-- Witness for C10 at a concrete seed-to-stream function and the shipped
configuration. -/
theorem c10_same_seed_same_stats_witness :
    (runSimulation ((fun seed _ => (seed : Time)) 7) 1000 3
        (setResources mkManufacturingSystem
          [("machines", 10), ("operators", 5)])).1.finishedProducts =
      (runSimulation ((fun seed _ => (seed : Time)) 7) 1000 3
        (setResources mkManufacturingSystem
          [("machines", 10), ("operators", 5)])).1.finishedProducts :=
  (c10_same_seed_same_stats (fun seed _ => (seed : Time)) 7 7
    [("machines", 10), ("operators", 5)] [("machines", 10), ("operators", 5)]
    1000 1000 3 rfl rfl rfl).2.2.1

/-! ## The shift-change schedule of the shipped configuration

In the shipped configuration no unit ever acquires a resource, so the queue
always holds exactly one pending arrival and one pending shift change; this
pins down the whole trace. -/

theorem arrivalTime_le_add (stream : Nat → Time) (hstream : ∀ n, 0 ≤ stream n) :
    ∀ (d m : Nat), arrivalTime stream m ≤ arrivalTime stream (m + d) := by
  intro d
  induction d with
  | zero => intro m; exact le_refl _
  | succ d ih =>
    intro m
    have h1 := ih m
    have h2 := hstream (m + d + 1)
    have : arrivalTime stream (m + (d + 1)) = arrivalTime stream (m + d) + stream (m + d + 1) := rfl
    rw [this]
    linarith

theorem arrivalTime_mono {stream : Nat → Time} (hstream : ∀ n, 0 ≤ stream n)
    {m m' : Nat} (h : m ≤ m') : arrivalTime stream m ≤ arrivalTime stream m' := by
  obtain ⟨d, rfl⟩ := Nat.exists_eq_add_of_le h
  exact arrivalTime_le_add stream hstream d m

theorem mapIndex_snd_of_found {m : List (String × α)} {k : String} {v : α}
    (h : mapFind m k = some v) (d : α) : (mapIndex m k d).2 = m := by
  unfold mapIndex
  rw [h]

/-- Full effect of one arrival event in a stalled configuration: the counter
and waiting bumps aside, the only queue change is the push of the next
arrival, the clock is unchanged, and the configuration stays stalled. -/
theorem c9_arrival_step (stream : Nat → Time) (s : SimState)
    (hpt : s.processingTimes = mkManufacturingSystem.processingTimes)
    (hav : ∀ i, mapGetD s.availableResources (getStageName i) 0 ≤ 0) :
    (execAction stream (EAction.rawMaterialArrival "ProductA") s).eventQueue =
      heapPush s.eventQueue ⟨s.currentTime + stream s.rngIndex,
        "raw_material_arrival", EAction.rawMaterialArrival "ProductA"⟩ ∧
    (execAction stream (EAction.rawMaterialArrival "ProductA") s).rngIndex = s.rngIndex + 1 ∧
    (execAction stream (EAction.rawMaterialArrival "ProductA") s).currentTime = s.currentTime ∧
    (execAction stream (EAction.rawMaterialArrival "ProductA") s).resources = s.resources ∧
    (execAction stream (EAction.rawMaterialArrival "ProductA") s).shiftLength = s.shiftLength ∧
    (execAction stream (EAction.rawMaterialArrival "ProductA") s).processingTimes =
      s.processingTimes ∧
    (∀ i, mapGetD (execAction stream (EAction.rawMaterialArrival "ProductA") s).availableResources
      (getStageName i) 0 ≤ 0) := by
  rw [show execAction stream (EAction.rawMaterialArrival "ProductA") s =
    handleRawMaterialArrival stream "ProductA" s from rfl, handleRawMaterialArrival_eq]
  have hfound : mapFind s.processingTimes "ProductA" = some [2, 3/2, 1, 1] := by
    rw [hpt]
    rfl
  have hidx : (⟨"ProductA", 0⟩ : Product).intermediateStage <
      (mapIndex (scheduleEvent { s with rawMaterialCount := s.rawMaterialCount + 1, productQueue := s.productQueue ++ [⟨"ProductA", 0⟩], rngIndex := s.rngIndex + 1 } (s.currentTime + stream s.rngIndex) "raw_material_arrival" (EAction.rawMaterialArrival "ProductA")).processingTimes
        (⟨"ProductA", 0⟩ : Product).type []).1.length := by
    show 0 < (mapIndex s.processingTimes "ProductA" []).1.length
    rw [mapIndex_fst]
    unfold mapGetD
    rw [hfound]
    simp
  have havail : (mapIndex (scheduleEvent { s with rawMaterialCount := s.rawMaterialCount + 1, productQueue := s.productQueue ++ [⟨"ProductA", 0⟩], rngIndex := s.rngIndex + 1 } (s.currentTime + stream s.rngIndex) "raw_material_arrival" (EAction.rawMaterialArrival "ProductA")).availableResources
      (getStageName (⟨"ProductA", 0⟩ : Product).intermediateStage) 0).1 ≤ 0 := by
    show (mapIndex s.availableResources (getStageName 0) 0).1 ≤ 0
    rw [mapIndex_fst]
    exact hav 0
  rw [handleNextStage_fail _ _ hidx havail]
  refine ⟨rfl, rfl, rfl, rfl, rfl, ?_, ?_⟩
  · show (mapIndex s.processingTimes "ProductA" []).2 = s.processingTimes
    exact mapIndex_snd_of_found hfound []
  · intro i
    show mapGetD (mapIndex s.availableResources (getStageName 0) 0).2 (getStageName i) 0 ≤ 0
    rw [mapGetD_mapIndex_snd]
    exact hav i

/-- The main loop invariant for the shift-change count: with the stalled
configuration the queue is exactly the heap-ordered pair of the pending
arrival and the pending shift change, and the remaining shift-change firings
are exactly `remainingShiftTimes k`. -/
theorem c9_loop (stream : Nat → Time) (hstream : ∀ n, 0 ≤ stream n)
    (N : Nat) (hN : 24 < arrivalTime stream N)
    (hne24 : ∀ m, arrivalTime stream m ≠ 24) :
    ∀ (fuel m k : Nat) (s : SimState),
      m ≤ N → k ≤ 2 →
      N - m + (3 - k) ≤ fuel →
      s.currentTime < 24 →
      s.rngIndex = m + 1 →
      (∀ i, mapGetD s.availableResources (getStageName i) 0 ≤ 0) →
      (∀ i, mapGetD s.resources (getStageName i) 0 ≤ 0) →
      s.shiftLength = 8 →
      s.processingTimes = mkManufacturingSystem.processingTimes →
      ((s.eventQueue = [arrivalEvent stream m, shiftEvent k] ∧
          arrivalTime stream m ≤ 8 * ((k : Time) + 1)) ∨
        (s.eventQueue = [shiftEvent k, arrivalEvent stream m] ∧
          8 * ((k : Time) + 1) ≤ arrivalTime stream m)) →
      ((runLoop stream 24 fuel s).2.filter (fun e => e.type == "shift_change")).map Event.time =
        remainingShiftTimes k := by
  intro fuel
  induction fuel with
  | zero =>
    intro m k s hm hk hfuel
    omega
  | succ fuel ih =>
    intro m k s hm hk hfuel htime hrng havail hres hshift hpt hpair
    have hklt : 8 * ((k : Time) + 1) ≤ 24 := by
      have hk' : (k : Time) ≤ 2 := by exact_mod_cast Nat.cast_le.mpr hk
      linarith
    rcases hpair with ⟨hq, hA⟩ | ⟨hq, hB⟩
    · -- the arrival is at the root and pops first
      have harrlt : arrivalTime stream m < 24 :=
        lt_of_le_of_ne (le_trans hA hklt) (hne24 m)
      have hmN : m < N := by
        rcases Nat.lt_or_ge m N with h | h
        · exact h
        · exact absurd (arrivalTime_mono hstream h) (by linarith)
      simp only [runLoop]
      rw [if_pos ⟨by rw [hq]; simp, htime⟩]
      rw [hq, heapTop_cons, heapPopBack_pair]
      simp only [arrivalEvent]
      obtain ⟨hq2, hrng2, htime2, hres2, hshift2, hpt2, havail2⟩ :=
        c9_arrival_step stream
          { s with eventQueue := [shiftEvent k], currentTime := arrivalTime stream m }
          hpt havail
      have hnext : ({ s with eventQueue := [shiftEvent k], currentTime := arrivalTime stream m } : SimState).currentTime + stream ({ s with eventQueue := [shiftEvent k], currentTime := arrivalTime stream m } : SimState).rngIndex = arrivalTime stream (m + 1) := by
        show arrivalTime stream m + stream s.rngIndex = arrivalTime stream (m + 1)
        rw [hrng]
        rfl
      rw [hnext] at hq2
      rw [show ({ s with eventQueue := [shiftEvent k], currentTime := arrivalTime stream m } : SimState).eventQueue = [shiftEvent k] from rfl] at hq2
      have hmap := ih (m + 1) k
        (execAction stream (EAction.rawMaterialArrival "ProductA")
          { s with eventQueue := [shiftEvent k], currentTime := arrivalTime stream m })
        (by omega) hk (by omega)
        (by rw [htime2]; exact harrlt)
        (by rw [hrng2]; show s.rngIndex + 1 = m + 1 + 1; rw [hrng])
        havail2
        (by rw [hres2]; exact hres)
        (by rw [hshift2]; exact hshift)
        (by rw [hpt2]; exact hpt)
        (by
          rw [hq2, heapPush_singleton]
          by_cases hcmp : (⟨arrivalTime stream (m + 1), "raw_material_arrival",
              EAction.rawMaterialArrival "ProductA"⟩ : Event).time < (shiftEvent k).time
          · rw [if_pos hcmp]
            exact Or.inl ⟨rfl, le_of_lt hcmp⟩
          · rw [if_neg hcmp]
            exact Or.inr ⟨rfl, not_lt.mp hcmp⟩)
      rw [List.filter_cons_of_neg (by simp), hmap]
    · -- the shift change is at the root and pops first
      simp only [runLoop]
      rw [if_pos ⟨by rw [hq]; simp, htime⟩]
      rw [hq, heapTop_cons, heapPopBack_pair]
      rw [show (shiftEvent k).action = EAction.shiftChange from rfl,
        show execAction stream EAction.shiftChange
          { s with eventQueue := [arrivalEvent stream m], currentTime := (shiftEvent k).time } =
          handleShiftChange { s with eventQueue := [arrivalEvent stream m], currentTime := (shiftEvent k).time } from rfl,
        handleShiftChange_eq]
      have hshift' : ({ s with eventQueue := [arrivalEvent stream m], currentTime := (shiftEvent k).time } : SimState).shiftLength = s.shiftLength := rfl
      have hnewshift : (⟨({ s with eventQueue := [arrivalEvent stream m], currentTime := (shiftEvent k).time } : SimState).currentTime + (({ s with eventQueue := [arrivalEvent stream m], currentTime := (shiftEvent k).time } : SimState).shiftLength : Time), "shift_change", EAction.shiftChange⟩ : Event) = shiftEvent (k + 1) := by
        show (⟨(shiftEvent k).time + ((s.shiftLength : Int) : Time), "shift_change",
          EAction.shiftChange⟩ : Event) = shiftEvent (k + 1)
        rw [hshift]
        show (⟨8 * ((k : Time) + 1) + ((8 : Int) : Time), "shift_change",
          EAction.shiftChange⟩ : Event) = ⟨8 * (((k + 1 : Nat) : Time) + 1), "shift_change",
          EAction.shiftChange⟩
        have : 8 * ((k : Time) + 1) + ((8 : Int) : Time) = 8 * (((k + 1 : Nat) : Time) + 1) := by
          push_cast
          ring
        rw [this]
      rw [hnewshift]
      by_cases hk2 : k = 2
      · -- third shift change: the clock reaches 24 and the loop exits
        subst hk2
        have hstop := runLoop_halted stream 24
          { { s with eventQueue := [arrivalEvent stream m], currentTime := (shiftEvent 2).time } with
            availableResources := ({ s with eventQueue := [arrivalEvent stream m], currentTime := (shiftEvent 2).time } : SimState).resources,
            eventQueue := heapPush ({ s with eventQueue := [arrivalEvent stream m], currentTime := (shiftEvent 2).time } : SimState).eventQueue (shiftEvent 3) }
          (by
            rw [not_and_or]
            right
            rw [not_lt]
            show (24 : Time) ≤ (shiftEvent 2).time
            show (24 : Time) ≤ 8 * (((2 : Nat) : Time) + 1)
            norm_num) fuel
        rw [hstop]
        rw [List.filter_cons_of_pos (by rfl), List.filter_nil, List.map_cons,
          List.map_nil]
        show [(shiftEvent 2).time] = remainingShiftTimes 2
        show [8 * (((2 : Nat) : Time) + 1)] = [24]
        norm_num
      · -- first or second shift change: continue with k + 1
        have hklt' : 8 * ((k : Time) + 1) < 24 := by
          have hk1 : (k : Time) ≤ 1 := by
            have : k ≤ 1 := by omega
            exact_mod_cast Nat.cast_le.mpr this
          linarith
        have hmap := ih m (k + 1)
          { { s with eventQueue := [arrivalEvent stream m], currentTime := (shiftEvent k).time } with
            availableResources := ({ s with eventQueue := [arrivalEvent stream m], currentTime := (shiftEvent k).time } : SimState).resources,
            eventQueue := heapPush ({ s with eventQueue := [arrivalEvent stream m], currentTime := (shiftEvent k).time } : SimState).eventQueue (shiftEvent (k + 1)) }
          hm (by omega) (by omega)
          (by show (shiftEvent k).time < 24; exact hklt')
          (by show s.rngIndex = m + 1; exact hrng)
          (by
            intro i
            show mapGetD s.resources (getStageName i) 0 ≤ 0
            exact hres i)
          (by
            intro i
            show mapGetD s.resources (getStageName i) 0 ≤ 0
            exact hres i)
          (by show s.shiftLength = 8; exact hshift)
          (by show s.processingTimes = mkManufacturingSystem.processingTimes; exact hpt)
          (by
            show (heapPush [arrivalEvent stream m] (shiftEvent (k + 1)) =
                [arrivalEvent stream m, shiftEvent (k + 1)] ∧
                arrivalTime stream m ≤ 8 * (((k + 1 : Nat) : Time) + 1)) ∨
              (heapPush [arrivalEvent stream m] (shiftEvent (k + 1)) =
                [shiftEvent (k + 1), arrivalEvent stream m] ∧
                8 * (((k + 1 : Nat) : Time) + 1) ≤ arrivalTime stream m)
            rw [heapPush_singleton]
            by_cases hcmp : (shiftEvent (k + 1)).time < (arrivalEvent stream m).time
            · rw [if_pos hcmp]
              refine Or.inr ⟨rfl, le_of_lt ?_⟩
              exact hcmp
            · rw [if_neg hcmp]
              exact Or.inl ⟨rfl, not_lt.mp hcmp⟩)
        rw [List.filter_cons_of_pos (by rfl)]
        rw [List.map_cons, hmap]
        show (shiftEvent k).time :: remainingShiftTimes (k + 1) = remainingShiftTimes k
        have hk01 : k = 0 ∨ k = 1 := by omega
        rcases hk01 with rfl | rfl
        · show (8 * (((0 : Nat) : Time) + 1)) :: [16, 24] = [8, 16, 24]
          norm_num
        · show (8 * (((1 : Nat) : Time) + 1)) :: [24] = [16, 24]
          norm_num

theorem timesNonneg_mkSystem : TimesNonneg mkManufacturingSystem := by
  unfold TimesNonneg
  with_unfolding_all decide

/-- C9: every `handleShiftChange` firing unconditionally resets the whole
availability map to the configured capacities — regardless of units
mid-process — and schedules the next shift change at `now + shiftLength`;
and in the shipped configuration with shift length `8` and bound `24`,
exactly three shift-change events fire, at times `8`, `16` and `24`, for
every nonnegative interarrival stream whose arrival times eventually exceed
`24` and never hit `24` exactly (an arrival tied at exactly `24` could pop
first and end the run after only two shift changes). -/
theorem c9_three_shift_changes (stream : Nat → Time) (hstream : ∀ n, 0 ≤ stream n)
    (N : Nat) (hN : 24 < arrivalTime stream N) (hne24 : ∀ m, arrivalTime stream m ≠ 24)
    (fuel : Nat) (hfuel : N + 4 ≤ fuel) :
    (∀ s : SimState, handleShiftChange s = { s with
      availableResources := s.resources,
      eventQueue := heapPush s.eventQueue
        ⟨s.currentTime + (s.shiftLength : Time), "shift_change", EAction.shiftChange⟩ }) ∧
    ((runSimulation stream 24 fuel mkManufacturingSystem).2.filter
      (fun e => e.type == "shift_change")).map Event.time = [8, 16, 24] := by
  refine ⟨handleShiftChange_eq, ?_⟩
  simp only [runSimulation, scheduleEvent]
  have hq : heapPush (heapPush mkManufacturingSystem.eventQueue
      ⟨stream mkManufacturingSystem.rngIndex, "raw_material_arrival",
        EAction.rawMaterialArrival "ProductA"⟩)
      ⟨(mkManufacturingSystem.shiftLength : Time), "shift_change", EAction.shiftChange⟩ =
      heapPush [arrivalEvent stream 0] (shiftEvent 0) := by
    rw [show mkManufacturingSystem.eventQueue = [] from rfl, heapPush_nil]
    have h1 : (⟨stream mkManufacturingSystem.rngIndex, "raw_material_arrival",
        EAction.rawMaterialArrival "ProductA"⟩ : Event) = arrivalEvent stream 0 := rfl
    have h2 : (⟨(mkManufacturingSystem.shiftLength : Time), "shift_change",
        EAction.shiftChange⟩ : Event) = shiftEvent 0 := by
      show (⟨((8 : Int) : Time), "shift_change", EAction.shiftChange⟩ : Event) = shiftEvent 0
      unfold shiftEvent
      have : ((8 : Int) : Time) = 8 * (((0 : Nat) : Time) + 1) := by
        push_cast
        ring
      rw [this]
    rw [h1, h2]
  refine (c9_loop stream hstream N hN hne24 fuel 0 0
    { mkManufacturingSystem with eventQueue := heapPush (heapPush mkManufacturingSystem.eventQueue ⟨stream mkManufacturingSystem.rngIndex, "raw_material_arrival", EAction.rawMaterialArrival "ProductA"⟩) ⟨(mkManufacturingSystem.shiftLength : Time), "shift_change", EAction.shiftChange⟩, rngIndex := mkManufacturingSystem.rngIndex + 1 }
    (Nat.zero_le N) (by omega) (by omega)
    (by show (0 : Time) < 24; norm_num)
    rfl ?_ ?_ rfl rfl ?_).trans rfl
  · intro i
    show mapGetD mkManufacturingSystem.availableResources (getStageName i) 0 ≤ 0
    unfold mapGetD
    rw [show mkManufacturingSystem.availableResources = [("machines", 10), ("operators", 5)]
      from rfl, stageName_not_configured]
    simp
  · intro i
    show mapGetD mkManufacturingSystem.resources (getStageName i) 0 ≤ 0
    unfold mapGetD
    rw [show mkManufacturingSystem.resources = [("machines", 10), ("operators", 5)]
      from rfl, stageName_not_configured]
    simp
  · show (heapPush (heapPush mkManufacturingSystem.eventQueue
      ⟨stream mkManufacturingSystem.rngIndex, "raw_material_arrival",
        EAction.rawMaterialArrival "ProductA"⟩)
      ⟨(mkManufacturingSystem.shiftLength : Time), "shift_change", EAction.shiftChange⟩ =
        [arrivalEvent stream 0, shiftEvent 0] ∧
        arrivalTime stream 0 ≤ 8 * (((0 : Nat) : Time) + 1)) ∨
      (heapPush (heapPush mkManufacturingSystem.eventQueue
        ⟨stream mkManufacturingSystem.rngIndex, "raw_material_arrival",
          EAction.rawMaterialArrival "ProductA"⟩)
        ⟨(mkManufacturingSystem.shiftLength : Time), "shift_change", EAction.shiftChange⟩ =
          [shiftEvent 0, arrivalEvent stream 0] ∧
        8 * (((0 : Nat) : Time) + 1) ≤ arrivalTime stream 0)
    rw [hq, heapPush_singleton]
    by_cases hcmp : (shiftEvent 0).time < (arrivalEvent stream 0).time
    · rw [if_pos hcmp]
      exact Or.inr ⟨rfl, le_of_lt hcmp⟩
    · rw [if_neg hcmp]
      exact Or.inl ⟨rfl, not_lt.mp hcmp⟩

/-- C9 is not exact as stated: with the first arrival landing exactly on the
bound `24`, the `t = 24` arrival sits at the heap root (the strict `>`
comparison of `push_heap` never moves an equal-time push above the root, in
any conforming implementation), pops before the `t = 24` shift change,
advances the clock to the bound, and the run exits after only two
shift-change firings, at `8` and `16`. -/
theorem c9_tie_at_bound_two_shift_changes :
    List.map Event.time
      ((runSimulation (fun n => if n = 0 then 24 else 100) 24 10
        mkManufacturingSystem).2.filter (fun e => e.type == "shift_change")) =
      [8, 16] := by
  with_unfolding_all decide

/-- Witness for C9 on the stream with constant interarrival `100`: the first
arrival is already past the bound, and the three shift changes fire at
`8, 16, 24`. -/
theorem c9_three_shift_changes_witness :
    ((runSimulation (fun _ => 100) 24 4 mkManufacturingSystem).2.filter
      (fun e => e.type == "shift_change")).map Event.time = [8, 16, 24] := by
  have h100 : ∀ m, 24 < arrivalTime (fun _ => 100) m := by
    intro m
    induction m with
    | zero =>
      show (24 : Time) < 100
      norm_num
    | succ m ih =>
      have hstep : arrivalTime (fun _ => 100) (m + 1) =
          arrivalTime (fun _ => 100) m + 100 := rfl
      rw [hstep]
      linarith
  exact (c9_three_shift_changes (fun _ => 100) (fun n => by norm_num) 0 (h100 0)
    (fun m => ne_of_gt (h100 m)) 4 (by omega)).2

/-- C4 is refuted on the tie-break half: with three maintenance events
scheduled at time `1` (in order `r1`, `r2`, `r3`) before the run seeds the
arrival (also at time `1`, scheduled fourth), the binary heap pops the
equal-time events in the order `r1`, `r2`, arrival, `r3` — the arrival,
scheduled after `r3`, overtakes it, so pop order does not equal schedule
order for equal times. -/
theorem c4_equal_times_pop_out_of_order :
    List.map Event.action
      (runSimulation (fun n => if n = 0 then 1 else 100) 1000 5
        (scheduleEvent (scheduleEvent (scheduleEvent mkManufacturingSystem
          1 "maintenance" (EAction.maintenance "r1"))
          1 "maintenance" (EAction.maintenance "r2"))
          1 "maintenance" (EAction.maintenance "r3"))).2 =
      [EAction.maintenance "r1", EAction.maintenance "r2",
       EAction.rawMaterialArrival "ProductA", EAction.maintenance "r3",
       EAction.shiftChange] ∧
    List.map Event.time
      (runSimulation (fun n => if n = 0 then 1 else 100) 1000 5
        (scheduleEvent (scheduleEvent (scheduleEvent mkManufacturingSystem
          1 "maintenance" (EAction.maintenance "r1"))
          1 "maintenance" (EAction.maintenance "r2"))
          1 "maintenance" (EAction.maintenance "r3"))).2 =
      [1, 1, 1, 1, 8] := by
  with_unfolding_all decide

/-- Helper: a run started at clock `0` with a well-formed queue pops events in
monotone time order. -/
theorem runSimulation_popped_sorted (stream : Nat → Time) (hstream : ∀ n, 0 ≤ stream n)
    (runTime : Time) (fuel : Nat) (s : SimState) (h0 : s.currentTime = 0)
    (hq : QueueOk s) (ht : TimesNonneg s) :
    ((runSimulation stream runTime fuel s).2.map Event.time).Chain' (· ≤ ·) := by
  simp only [runSimulation, scheduleEvent]
  refine (runLoop_popped_sorted stream hstream runTime fuel
    { s with eventQueue := heapPush (heapPush s.eventQueue ⟨stream s.rngIndex, "raw_material_arrival", EAction.rawMaterialArrival "ProductA"⟩) ⟨(s.shiftLength : Time), "shift_change", EAction.shiftChange⟩, rngIndex := s.rngIndex + 1 }
    ⟨?_, ?_⟩ ⟨ht.1, ht.2.1, ht.2.2⟩).2
  · exact heapLe_heapPush (heapLe_heapPush hq.1 _) _
  · intro e he
    rcases mem_heapPush e he with hm | rfl
    · rcases mem_heapPush e hm with hm2 | rfl
      · exact hq.2 e hm2
      · refine ⟨?_, trivial⟩
        show s.currentTime ≤ stream s.rngIndex
        rw [h0]
        exact hstream _
    · refine ⟨?_, trivial⟩
      show s.currentTime ≤ (s.shiftLength : Time)
      rw [h0]
      exact_mod_cast ht.2.2

/-- C4 amended: the half of the claim the code does satisfy — along every run
of `runScenario` with nonnegative samples, the sequence of popped event times
is monotonically non-decreasing.  The equal-time tie-break is heap order, not
insertion order (see the counterexample). -/
theorem c4_pop_times_monotone (machineCount operatorCount : Int) (runTime : Time)
    (stream : Nat → Time) (hstream : ∀ n, 0 ≤ stream n) (fuel : Nat) :
    ((runScenario machineCount operatorCount runTime stream fuel).2.map
      Event.time).Chain' (· ≤ ·) := by
  unfold runScenario
  refine runSimulation_popped_sorted stream hstream runTime fuel _ rfl ⟨?_, ?_⟩
    ⟨timesNonneg_mkSystem.1, timesNonneg_mkSystem.2.1, timesNonneg_mkSystem.2.2⟩
  · show heapLe []
    intro j hj hjlen
    simp at hjlen
  · intro e he
    rw [show (setResources mkManufacturingSystem
      [("machines", machineCount), ("operators", operatorCount)]).eventQueue = []
      from rfl] at he
    simp at he

/-- Witness for the amended C4 at the shipped capacities and a concrete
stream. -/
theorem c4_pop_times_monotone_witness :
    ((runScenario 10 5 1000 (fun _ => 100) 6).2.map Event.time).Chain' (· ≤ ·) :=
  c4_pop_times_monotone 10 5 1000 (fun _ => 100) (fun n => by norm_num) 6

end Manufacturing
